import Mathlib

/-!
Verification of the SLR(1) parsing core (grammar augmentation, FIRST/FOLLOW,
LR(0) automaton, SLR table synthesis, shift-reduce simulator).

The definitions below are a shallow embedding of the TypeScript sources
(`grammar.ts`, `lr0.ts`, `simulator.ts` and the table builder).  JavaScript
`Set`s become insertion-ordered duplicate-free lists, `Record`s become
functions into `Option`, and code paths that would throw a runtime
`TypeError` (non-null assertions on a failed `Array.find`, property reads on
`undefined`) are modelled by `Option`-returning functions where `none` marks
the thrown exception.  Unbounded `while` loops are modelled by structural
recursion on an explicit fuel argument chosen large enough to subsume the
source loop's own termination behaviour; all theorems below are either
fuel-independent or carry the fuel explicitly.
-/

set_option maxRecDepth 1000000

namespace SLR

/-- The empty-string (epsilon) marker used throughout the sources. -/
def EPS : String := "ε"

/-- An apostrophe as a one-character string (the sources write `'` literally;
we build it from its code point). -/
def apos : String := ⟨[Char.ofNat 39]⟩

/-- `Production` from `types`: `{head, body, id}`. -/
structure Production where
  head : String
  body : List String
  id : Nat
deriving DecidableEq

/-- `Grammar` from `types`.  The JavaScript `Set`s for terminals and
non-terminals are modelled as insertion-ordered lists; `Set.has` is list
membership and `Set.add` is `setAdd` below. -/
structure Grammar where
  productions : List Production
  terminals : List String
  nonTerminals : List String
  startSymbol : String
deriving DecidableEq

/-- JavaScript `Set.add`: append the element unless it is already present. -/
def setAdd (s : List String) (x : String) : List String :=
  if x ∈ s then s else s ++ [x]

/-- `augmentGrammar` from `grammar.ts`: prepend the synthetic production
`S' → S` with id 0 and reassign every original production's id to its
position plus one. -/
def augmentGrammar (grammar : Grammar) : Grammar :=
  let newStartSymbol := grammar.startSymbol ++ apos
  let augmentedProduction : Production :=
    { head := newStartSymbol, body := [grammar.startSymbol], id := 0 }
  let newProductions :=
    augmentedProduction ::
      grammar.productions.enum.map (fun pr => { pr.2 with id := pr.1 + 1 })
  { grammar with
      productions := newProductions
      nonTerminals := setAdd grammar.nonTerminals newStartSymbol
      startSymbol := newStartSymbol }

/-- Every symbol that appears in a grammar: non-terminals, terminals,
production heads and production-body symbols. -/
def symbolsOf (g : Grammar) : List String :=
  g.nonTerminals ++ g.terminals ++ g.productions.map (·.head) ++
    (g.productions.map (·.body)).flatten

/-- A concrete grammar whose terminal alphabet already contains the
apostrophized name of the start symbol. -/
def collisionGrammar : Grammar :=
  { productions := [{ head := "A", body := ["A" ++ apos], id := 0 }]
    terminals := ["A" ++ apos]
    nonTerminals := ["A"]
    startSymbol := "A" }

/-- C7 (counterexample): `augmentGrammar` names the new start symbol by
appending an apostrophe to the old one without any freshness check, so for
`collisionGrammar` (whose terminal alphabet contains `A'`) the new start
symbol is NOT distinct from every symbol appearing in the input grammar,
refuting the claim as stated at this concrete input. -/
theorem augment_start_collision :
    (augmentGrammar collisionGrammar).startSymbol ∈ symbolsOf collisionGrammar := by
  decide

/-- C7 (amended): for every grammar with at least one production, whose
production ids equal their positions (the data-model invariant "ids are
contiguous from 0"), and whose symbols do not already contain the
apostrophized start-symbol name, `augmentGrammar` returns a grammar with
exactly one more production; its production with id 0 has the new start
symbol as head and body exactly `[S]`; the new start symbol (the old one
with an apostrophe appended) is distinct from every symbol appearing in the
input; and every original production reappears at its old position plus one
with its id shifted by one and head and body preserved. -/
theorem augment_spec_amended (G : Grammar)
    (hne : G.productions ≠ [])
    (hids : ∀ j (h : j < G.productions.length), (G.productions.get ⟨j, h⟩).id = j)
    (hfresh : (G.startSymbol ++ apos) ∉ symbolsOf G) :
    (augmentGrammar G).productions.length = G.productions.length + 1 ∧
    (augmentGrammar G).productions.head? =
      some { head := (augmentGrammar G).startSymbol, body := [G.startSymbol], id := 0 } ∧
    (augmentGrammar G).startSymbol ∉ symbolsOf G ∧
    ∀ j (h : j < G.productions.length),
      (augmentGrammar G).productions[j+1]? =
        some { G.productions.get ⟨j, h⟩ with id := (G.productions.get ⟨j, h⟩).id + 1 } := by
  refine ⟨?_, ?_, ?_, ?_⟩
  · simp [augmentGrammar]
  · simp [augmentGrammar]
  · exact hfresh
  · intro j h
    have hj : (augmentGrammar G).productions[j+1]? =
        (G.productions.enum.map (fun pr => { pr.2 with id := pr.1 + 1 }))[j]? := by
      simp [augmentGrammar]
    rw [hj, List.getElem?_map]
    have henum : G.productions.enum[j]? = some (j, G.productions.get ⟨j, h⟩) := by
      rw [List.getElem?_enum]
      simp [List.getElem?_eq_getElem h]
    rw [henum]
    simp
    exact (hids j h).symm

/-- C7 (witness for the amended theorem): instantiation at a concrete
two-production grammar. -/
theorem augment_spec_amended_witness :
    (augmentGrammar { productions := [{ head := "S", body := ["a", "S"], id := 0 },
                                      { head := "S", body := ["b"], id := 1 }]
                      terminals := ["a", "b"]
                      nonTerminals := ["S"]
                      startSymbol := "S" }).productions.length = 3 := by
  have h := augment_spec_amended
    { productions := [{ head := "S", body := ["a", "S"], id := 0 },
                      { head := "S", body := ["b"], id := 1 }]
      terminals := ["a", "b"]
      nonTerminals := ["S"]
      startSymbol := "S" }
    (by decide)
    (by decide)
    (by decide)
  exact h.1

/-! ### Tokenizer (`simulator.ts`, lines 11–39) -/

/-- JavaScript `String.prototype.trim` on the character list: drop whitespace
from both ends. -/
def jsTrim (l : List Char) : List Char :=
  ((l.dropWhile Char.isWhitespace).reverse.dropWhile Char.isWhitespace).reverse

/-- One insertion step of the stable length-descending sort the source
performs with `sort((a, b) => b.length - a.length)`. -/
def insertByLen (x : String) : List String → List String
  | [] => [x]
  | y :: ys => if y.length < x.length then x :: y :: ys else y :: insertByLen x ys

/-- Stable sort by string length, longest first. -/
def sortByLenDesc (l : List String) : List String := l.foldr insertByLen []

/-- `sortedTerminals` from `simulateParsing`: the grammar's terminals with
the end-of-input and epsilon markers removed, sorted longest first. -/
def sortedTerminals (g : Grammar) : List String :=
  sortByLenDesc (g.terminals.filter (fun t => !(t == "$") && !(t == EPS)))

/-- The terminal the tokenizer picks at the current position: the first
entry of the length-sorted terminal list that is a prefix of the remaining
input (the source's `for … startsWith … break` loop). -/
def nextMatch (st : List String) (remaining : List Char) : Option String :=
  st.find? (fun t => t.data.isPrefixOf remaining)

/-- The tokenizer loop of `simulateParsing`.  Fuel replaces the source's
`while (remaining.length > 0)`; every iteration of the source loop consumes
at least one character whenever no terminal is the empty string, so the fuel
chosen in `tokenize` is never exhausted in that case. -/
def tokenLoop (st : List String) : Nat → List Char → List String → List String
  | 0, _, tokens => tokens
  | fuel+1, remaining, tokens =>
    match remaining with
    | [] => tokens
    | c :: rest =>
      if c = ' ' then tokenLoop st fuel rest tokens
      else
        match nextMatch st remaining with
        | some t => tokenLoop st fuel (jsTrim (remaining.drop t.data.length)) (tokens ++ [t])
        | none => tokenLoop st fuel (jsTrim rest) (tokens ++ [String.mk [c]])

/-- Full tokenization: trim the input, run the loop, append `$`. -/
def tokenize (g : Grammar) (inputStr : String) : List String :=
  let st := sortedTerminals g
  let initial := jsTrim inputStr.data
  tokenLoop st (initial.length + 1) initial [] ++ ["$"]

theorem mem_insertByLen {a x : String} {l : List String} :
    a ∈ insertByLen x l ↔ a = x ∨ a ∈ l := by
  induction l with
  | nil => simp [insertByLen]
  | cons y ys ih =>
    by_cases h : y.length < x.length
    · simp [insertByLen, h]
    · simp [insertByLen, h, ih]
      tauto

theorem mem_sortByLenDesc {a : String} {l : List String} :
    a ∈ sortByLenDesc l ↔ a ∈ l := by
  induction l with
  | nil => simp [sortByLenDesc]
  | cons y ys ih =>
    simp only [sortByLenDesc, List.foldr] at ih ⊢
    rw [mem_insertByLen, ih, List.mem_cons]

theorem pairwise_insertByLen {x : String} {l : List String}
    (h : l.Pairwise (fun a b => b.length ≤ a.length)) :
    (insertByLen x l).Pairwise (fun a b => b.length ≤ a.length) := by
  induction l with
  | nil => simp [insertByLen]
  | cons y ys ih =>
    rcases List.pairwise_cons.mp h with ⟨hy, hys⟩
    by_cases hlt : y.length < x.length
    · simp only [insertByLen, if_pos hlt]
      refine List.pairwise_cons.mpr ⟨?_, h⟩
      intro z hz
      rcases List.mem_cons.mp hz with rfl | hz'
      · omega
      · exact le_trans (hy z hz') (le_of_lt hlt)
    · simp only [insertByLen, if_neg hlt]
      refine List.pairwise_cons.mpr ⟨?_, ih hys⟩
      intro z hz
      rcases mem_insertByLen.mp hz with rfl | hz'
      · omega
      · exact hy z hz'

theorem pairwise_sortByLenDesc (l : List String) :
    (sortByLenDesc l).Pairwise (fun a b => b.length ≤ a.length) := by
  induction l with
  | nil => simp [sortByLenDesc]
  | cons y ys ih => exact pairwise_insertByLen ih

theorem find_longest {l : List String} {p : String → Bool} {t : String}
    (hp : l.Pairwise (fun a b => b.length ≤ a.length))
    (h : l.find? p = some t) :
    ∀ t' ∈ l, p t' = true → t'.length ≤ t.length := by
  induction l with
  | nil => simp at h
  | cons a as ih =>
    rcases List.pairwise_cons.mp hp with ⟨ha, has⟩
    by_cases hpa : p a = true
    · rw [List.find?_cons_of_pos _ hpa] at h
      cases h
      intro t' ht' _
      rcases List.mem_cons.mp ht' with rfl | h'
      · exact le_refl _
      · exact ha t' h'
    · rw [List.find?_cons_of_neg _ (by simpa using hpa)] at h
      intro t' ht' hpt'
      rcases List.mem_cons.mp ht' with rfl | h'
      · exact absurd hpt' hpa
      · exact ih has h t' h' hpt'

/-- C6: at each position (after the whitespace skip) the tokenizer picks a
terminal of the grammar, distinct from the `$` and `ε` markers, that is a
prefix of the remaining input and whose length is maximal among all such
terminals; when no terminal matches it consumes exactly one character as a
single-character token; and the end-of-input marker `$` is the final token
of every tokenization. -/
theorem tokenize_longest_match (g : Grammar) (remaining : List Char) :
    (∀ t, nextMatch (sortedTerminals g) remaining = some t →
       t ∈ g.terminals ∧ t ≠ "$" ∧ t ≠ EPS ∧ t.data.isPrefixOf remaining = true ∧
       ∀ t' ∈ g.terminals, t' ≠ "$" → t' ≠ EPS →
         t'.data.isPrefixOf remaining = true → t'.length ≤ t.length) ∧
    (nextMatch (sortedTerminals g) remaining = none →
       ∀ t' ∈ g.terminals, t' ≠ "$" → t' ≠ EPS →
         t'.data.isPrefixOf remaining = false) ∧
    (∀ st fuel tokens c rest, remaining = c :: rest → c ≠ ' ' →
       nextMatch st remaining = none →
       tokenLoop st (fuel+1) remaining tokens =
         tokenLoop st fuel (jsTrim rest) (tokens ++ [String.mk [c]])) ∧
    (∀ inputStr, (tokenize g inputStr).getLast? = some "$") := by
  have hmem : ∀ t' ∈ g.terminals, t' ≠ "$" → t' ≠ EPS →
      t' ∈ sortedTerminals g := by
    intro t' h1 h2 h3
    rw [sortedTerminals, mem_sortByLenDesc, List.mem_filter]
    refine ⟨h1, ?_⟩
    simp [h2, h3]
  refine ⟨?_, ?_, ?_, ?_⟩
  · intro t hfind
    rw [nextMatch] at hfind
    have hmemt : t ∈ sortedTerminals g := List.mem_of_find?_eq_some hfind
    have hsplit := hmemt
    rw [sortedTerminals, mem_sortByLenDesc, List.mem_filter] at hsplit
    have hpt := List.find?_some hfind
    refine ⟨hsplit.1, ?_, ?_, hpt, ?_⟩
    · intro hc; rw [hc] at hsplit; simp at hsplit
    · intro hc; rw [hc] at hsplit; simp at hsplit
    · intro t' h1 h2 h3 h4
      exact find_longest (pairwise_sortByLenDesc _) hfind t' (hmem t' h1 h2 h3) h4
  · intro hnone t' h1 h2 h3
    rw [nextMatch] at hnone
    have h2' := List.find?_eq_none.mp hnone t' (hmem t' h1 h2 h3)
    simp only [Bool.not_eq_true] at h2'
    exact h2'
  · intro st fuel tokens c rest hrem hc hnone
    subst hrem
    simp only [tokenLoop, if_neg hc, hnone]
  · intro inputStr
    rw [tokenize]
    exact List.getLast?_concat _

/-- C6 (witness): on the grammar with terminals `id`, `i`, `$` and remaining
input `idx`, the tokenizer picks `id` (the longest matching terminal), and
the final token of tokenizing `i d` is `$`. -/
theorem tokenize_longest_match_witness :
    ("id" : String) ∈ ({ productions := [], terminals := ["i", "id", "$"],
                         nonTerminals := ["S"], startSymbol := "S" } : Grammar).terminals ∧
    (tokenize { productions := [], terminals := ["i", "id", "$"],
                nonTerminals := ["S"], startSymbol := "S" } "i d").getLast? = some "$" := by
  have h := tokenize_longest_match
    { productions := [], terminals := ["i", "id", "$"], nonTerminals := ["S"], startSymbol := "S" }
    ("idx".data)
  refine ⟨(h.1 "id" (by decide)).1, h.2.2.2 "i d"⟩

/-! ### Stack normalization for resumed simulations (`simulator.ts`, lines 42–53) -/

/-- The optional resume state accepted by `simulateParsing` (the `debug`
flag only drives console logging and is omitted). -/
structure SimOpts where
  initialStack : Option (List Nat) := none
  initialSymbols : Option (List String) := none

/-- The stack/symbol initialization of `simulateParsing`: default the state
stack to `[0]` and the symbol stack to one `$` per state, then left-pad the
shorter of the two (symbols with `$`, states with 0, via `unshift`). -/
def normalizeStacks (opts : SimOpts) : List Nat × List String :=
  let stack : List Nat :=
    match opts.initialStack with
    | some l => if l.length > 0 then l else [0]
    | none => [0]
  let symbols1 : List String :=
    match opts.initialSymbols with
    | some l => if l.length > 0 then l else List.replicate stack.length "$"
    | none => List.replicate stack.length "$"
  let symbols2 : List String :=
    if symbols1.length < stack.length then
      List.replicate (stack.length - symbols1.length) "$" ++ symbols1
    else symbols1
  let stack2 : List Nat :=
    if stack.length < symbols2.length then
      List.replicate (symbols2.length - stack.length) 0 ++ stack
    else stack
  (stack2, symbols2)

/-- C9: when both resume stacks are supplied (non-empty), the shorter one is
left-padded — the symbol stack with `$`, the state stack with the initial
state 0 — so that the two stacks end up with equal lengths. -/
theorem normalize_stacks_padding (istack : List Nat) (isyms : List String)
    (h1 : istack ≠ []) (h2 : isyms ≠ []) :
    (normalizeStacks { initialStack := some istack, initialSymbols := some isyms }).1.length =
      (normalizeStacks { initialStack := some istack, initialSymbols := some isyms }).2.length ∧
    (normalizeStacks { initialStack := some istack, initialSymbols := some isyms }).1 =
      List.replicate (isyms.length - istack.length) 0 ++ istack ∧
    (normalizeStacks { initialStack := some istack, initialSymbols := some isyms }).2 =
      List.replicate (istack.length - isyms.length) "$" ++ isyms := by
  have hs : istack.length > 0 := List.length_pos.mpr h1
  have hy : isyms.length > 0 := List.length_pos.mpr h2
  simp only [normalizeStacks, if_pos hs, if_pos hy]
  by_cases hlt : isyms.length < istack.length
  · simp only [if_pos hlt]
    have hlen : (List.replicate (istack.length - isyms.length) "$" ++ isyms).length =
        istack.length := by simp; omega
    rw [hlen]
    simp only [lt_irrefl, if_false]
    refine ⟨by trivial, ?_, by trivial⟩
    have hz : isyms.length - istack.length = 0 := by omega
    rw [hz]; simp
  · simp only [if_neg hlt]
    by_cases hgt : istack.length < isyms.length
    · simp only [if_pos hgt]
      refine ⟨by simp; omega, by trivial, ?_⟩
      have hz : istack.length - isyms.length = 0 := by omega
      rw [hz]; simp
    · simp only [if_neg hgt]
      refine ⟨by omega, ?_, ?_⟩
      · have hz : isyms.length - istack.length = 0 := by omega
        rw [hz]; simp
      · have hz : istack.length - isyms.length = 0 := by omega
        rw [hz]; simp

/-- C9 (witness): instantiation at the concrete pair `([5], [a, b])`. -/
theorem normalize_stacks_padding_witness :
    (normalizeStacks { initialStack := some [5], initialSymbols := some ["a", "b"] }).1 =
      [0, 5] := by
  have h := normalize_stacks_padding [5] ["a", "b"] (by decide) (by decide)
  simpa using h.2.1

/-! ### SLR(1) table builder (the unnamed source file, `buildTable`) -/

/-- `LRItem` from `types`. -/
structure LRItem where
  productionId : Nat
  dotPosition : Nat
deriving DecidableEq

/-- `State` from `types`: automaton state with its item set and outgoing
transitions (a JavaScript object keyed by symbol, modelled as an
insertion-ordered association list). -/
structure DFAState where
  id : Nat
  items : List LRItem
  transitions : List (String × Nat)
deriving DecidableEq

/-- `ActionEntry` from `types`: Shift / Reduce / Accept. -/
inductive ActionEntry where
  | shift (value : Nat)
  | reduce (value : Nat)
  | accept
deriving DecidableEq

/-- The JavaScript `entry.value` property: the payload of a shift or reduce,
`undefined` (here `none`) for accept. -/
def ActionEntry.valueOf : ActionEntry → Option Nat
  | .shift v => some v
  | .reduce v => some v
  | .accept => none

/-- `Conflict` from `types`. -/
structure Conflict where
  state : Nat
  symbol : String
  type : String
  existing : ActionEntry
  new : ActionEntry
deriving DecidableEq

/-- The conflict classification both branches of `buildTable` perform:
`existing.type === 'shift' ? 'Shift-Reduce' : 'Reduce-Reduce'`. -/
def conflictKind : ActionEntry → String
  | .shift _ => "Shift-Reduce"
  | _ => "Reduce-Reduce"

/-- `FirstFollowSets` from `types`: `Record<string, Set<string>>` becomes a
partial map into ordered lists (`none` models an absent key). -/
structure FirstFollowSets where
  first : String → Option (List String)
  follow : String → Option (List String)

/-- The mutable accumulator of `buildTable`: the action and goto records
plus the conflict log. -/
structure TableAcc where
  action : Nat → String → Option ActionEntry
  goto : Nat → String → Option Nat
  conflicts : List Conflict

/-- `ParsingTable` from `types`. -/
structure ParsingTable where
  action : Nat → String → Option ActionEntry
  goto : Nat → String → Option Nat
  terminals : List String
  nonTerminals : List String
  conflicts : List Conflict

/-- The reduce-candidate handling of `buildTable` for one FOLLOW terminal:
install `Reduce(prodId)` in an empty cell; leave an occupied cell unchanged
and append a conflict unless an identical (state, symbol, kind, candidate
production) conflict was already logged. -/
def installReduceAt (acc : TableAcc) (stId : Nat) (prodId : Nat) (terminal : String) :
    TableAcc :=
  match acc.action stId terminal with
  | some existing =>
    let ty := conflictKind existing
    let isDup := acc.conflicts.any (fun c =>
      c.state == stId && c.symbol == terminal && c.new.valueOf == some prodId && c.type == ty)
    if isDup then acc
    else { acc with conflicts := acc.conflicts ++
            [{ state := stId, symbol := terminal, type := ty,
               existing := existing, new := .reduce prodId }] }
  | none =>
    { acc with action := fun s t =>
        if s = stId ∧ t = terminal then some (.reduce prodId) else acc.action s t }

/-- The accept handling of `buildTable`: record a conflict when the `$` cell
holds a non-accept action, then store Accept there unconditionally. -/
def installAccept (acc : TableAcc) (stId : Nat) : TableAcc :=
  let acc1 : TableAcc :=
    match acc.action stId "$" with
    | some existing =>
      if existing ≠ .accept then
        { acc with conflicts := acc.conflicts ++
            [{ state := stId, symbol := "$", type := conflictKind existing,
               existing := existing, new := .accept }] }
      else acc
    | none => acc
  { acc1 with action := fun s t =>
      if s = stId ∧ t = "$" then some .accept else acc1.action s t }

/-- The shift/goto installation of `buildTable` for one transition entry. -/
def installTransition (g : Grammar) (stId : Nat) (acc : TableAcc) (tr : String × Nat) :
    TableAcc :=
  if tr.1 ∈ g.terminals then
    { acc with action := fun s t =>
        if s = stId ∧ t = tr.1 then some (.shift tr.2) else acc.action s t }
  else if tr.1 ∈ g.nonTerminals then
    { acc with goto := fun s t =>
        if s = stId ∧ t = tr.1 then some tr.2 else acc.goto s t }
  else acc

/-- `action[state.id] = {}; goto[state.id] = {}`: reset one state's rows. -/
def clearRows (acc : TableAcc) (stId : Nat) : TableAcc :=
  { acc with
      action := fun s t => if s = stId then none else acc.action s t
      goto := fun s t => if s = stId then none else acc.goto s t }

/-- The per-item reduce/accept processing of `buildTable`.  `none` models
the runtime `TypeError` the source raises when `productions.find` fails. -/
def processItemTB (g : Grammar) (ff : FirstFollowSets) (stId : Nat)
    (acc : TableAcc) (item : LRItem) : Option TableAcc := do
  let prod ← g.productions.find? (fun p => p.id == item.productionId)
  let isComplete := item.dotPosition == prod.body.length ||
    (prod.body.length == 1 && prod.body.head? == some EPS)
  if isComplete then
    if prod.head == g.startSymbol then pure (installAccept acc stId)
    else
      match ff.follow prod.head with
      | some followList =>
        pure (followList.foldl (fun a t => installReduceAt a stId prod.id t) acc)
      | none => pure acc
  else pure acc

/-- `buildTable` from the unnamed source file. -/
def buildTable (g : Grammar) (states : List DFAState) (ff : FirstFollowSets) :
    Option ParsingTable := do
  let acc ← states.foldlM (fun acc st => do
      let acc1 := clearRows acc st.id
      let acc2 := st.transitions.foldl (installTransition g st.id) acc1
      st.items.foldlM (processItemTB g ff st.id) acc2)
    ({ action := fun _ _ => none, goto := fun _ _ => none, conflicts := [] } : TableAcc)
  pure { action := acc.action, goto := acc.goto,
         terminals := g.terminals,
         nonTerminals := g.nonTerminals.filter (fun nt => !(nt == g.startSymbol)),
         conflicts := acc.conflicts }

/-- C1: the cell policy of `buildTable`.  A Reduce candidate aimed at an
occupied cell leaves the whole action table unchanged and is logged as a
conflict whose (state, symbol, kind, candidate production id) tuple appears
exactly once (deduplicated); a Reduce candidate aimed at an empty cell is
installed without logging anything; and the Accept branch stores Accept at
(state, `$`) unconditionally — the only overwrite of an occupied cell —
logging a conflict for any displaced non-accept action. -/
theorem buildTable_cell_policy (acc : TableAcc) (stId prodId : Nat) (terminal : String) :
    (∀ e, acc.action stId terminal = some e →
       (installReduceAt acc stId prodId terminal).action = acc.action ∧
       (∃ c ∈ (installReduceAt acc stId prodId terminal).conflicts,
         c.state = stId ∧ c.symbol = terminal ∧ c.type = conflictKind e ∧
         c.new.valueOf = some prodId) ∧
       (installReduceAt acc stId prodId terminal).conflicts =
         (if acc.conflicts.any (fun c =>
             c.state == stId && c.symbol == terminal &&
             c.new.valueOf == some prodId && c.type == conflictKind e)
          then acc.conflicts
          else acc.conflicts ++
            [{ state := stId, symbol := terminal, type := conflictKind e,
               existing := e, new := .reduce prodId }])) ∧
    (acc.action stId terminal = none →
       (installReduceAt acc stId prodId terminal).action stId terminal =
         some (.reduce prodId) ∧
       (installReduceAt acc stId prodId terminal).conflicts = acc.conflicts) ∧
    ((installAccept acc stId).action stId "$" = some .accept ∧
     ∀ e, acc.action stId "$" = some e → e ≠ .accept →
       ∃ c ∈ (installAccept acc stId).conflicts,
         c.state = stId ∧ c.symbol = "$" ∧ c.existing = e ∧ c.new = .accept ∧
         c.type = conflictKind e) := by
  refine ⟨?_, ?_, ?_, ?_⟩
  · intro e he
    simp only [installReduceAt, he]
    by_cases hdup : acc.conflicts.any (fun c =>
        c.state == stId && c.symbol == terminal &&
        c.new.valueOf == some prodId && c.type == conflictKind e) = true
    · simp only [hdup, if_true, if_pos hdup]
      rcases List.any_eq_true.mp hdup with ⟨c, hc, hpred⟩
      simp only [Bool.and_eq_true, beq_iff_eq] at hpred
      refine ⟨by trivial, ⟨c, hc, hpred.1.1.1, hpred.1.1.2, hpred.2, hpred.1.2⟩, by trivial⟩
    · simp only [Bool.not_eq_true] at hdup
      simp only [hdup, Bool.false_eq_true, if_false]
      refine ⟨by trivial, ?_, by trivial⟩
      refine ⟨_, List.mem_append_right _ (List.mem_singleton_self _), ?_, ?_, ?_, ?_⟩ <;> trivial
  · intro he
    simp only [installReduceAt, he]
    refine ⟨by simp, by trivial⟩
  · simp only [installAccept]
    simp
  · intro e he hne
    simp only [installAccept, he, if_pos hne]
    refine ⟨_, List.mem_append_right _ (List.mem_singleton_self _), ?_, ?_, ?_, ?_, ?_⟩ <;> trivial

/-- C1 (witness): instantiation at a concrete accumulator whose `(0, a)`
cell holds Shift 3 and whose `(0, $)` cell holds Reduce 1. -/
theorem buildTable_cell_policy_witness :
    (installReduceAt
      { action := fun s t => if s = 0 ∧ t = "a" then some (.shift 3)
                             else if s = 0 ∧ t = "$" then some (.reduce 1) else none
        goto := fun _ _ => none, conflicts := [] } 0 7 "a").action 0 "a" =
      some (.shift 3) ∧
    (installAccept
      { action := fun s t => if s = 0 ∧ t = "a" then some (.shift 3)
                             else if s = 0 ∧ t = "$" then some (.reduce 1) else none
        goto := fun _ _ => none, conflicts := [] } 0).action 0 "$" = some .accept := by
  have h := buildTable_cell_policy
    { action := fun s t => if s = 0 ∧ t = "a" then some (.shift 3)
                           else if s = 0 ∧ t = "$" then some (.reduce 1) else none
      goto := fun _ _ => none, conflicts := [] } 0 7 "a"
  have h1 := (h.1 (.shift 3) (by simp)).1
  refine ⟨?_, h.2.2.1⟩
  rw [h1]
  simp

/-! ### LR(0) item-set closure (`lr0.ts`) -/

/-- `areItemsEqual` from `lr0.ts`. -/
def areItemsEqual (a b : LRItem) : Bool :=
  a.productionId == b.productionId && a.dotPosition == b.dotPosition

/-- The lexicographic order (production id, then dot position) used by the
source's sort comparator when canonicalizing item sets. -/
def itemLe (a b : LRItem) : Bool :=
  a.productionId < b.productionId ||
    (a.productionId == b.productionId && a.dotPosition ≤ b.dotPosition)

/-- Insertion step of the canonicalizing sort. -/
def insertItem (x : LRItem) : List LRItem → List LRItem
  | [] => [x]
  | y :: ys => if itemLe x y then x :: y :: ys else y :: insertItem x ys

/-- Canonical sorting of an item list by (productionId, dotPosition). -/
def sortItems (l : List LRItem) : List LRItem := l.foldr insertItem []

/-- `areItemSetsEqual` from `lr0.ts`: equal lengths and pointwise-equal
canonical sortings, i.e. value-wise multiset equality. -/
def areItemSetsEqual (a b : List LRItem) : Bool :=
  a.length == b.length && sortItems a == sortItems b

theorem areItemSetsEqual_symm (a b : List LRItem) :
    areItemSetsEqual a b = areItemSetsEqual b a := by
  rw [Bool.eq_iff_iff]
  simp only [areItemSetsEqual, Bool.and_eq_true, beq_iff_eq]
  constructor
  · rintro ⟨h1, h2⟩; exact ⟨h1.symm, h2.symm⟩
  · rintro ⟨h1, h2⟩; exact ⟨h1.symm, h2.symm⟩

/-- One item-processing step of the closure loop (`lr0.ts` lines 19–35):
look up the item's production (`none` models the runtime TypeError the
non-null assertion would raise when the lookup fails) and, when the symbol
after the dot is a non-terminal, append a dot-0 item for every production
with that head that is not already present. -/
def closureProcessItem (g : Grammar) (l : List LRItem) (item : LRItem) :
    Option (List LRItem) :=
  match g.productions.find? (fun p => p.id == item.productionId) with
  | none => none
  | some prod =>
    match prod.body[item.dotPosition]? with
    | some symbolAfterDot =>
      if symbolAfterDot ∈ g.nonTerminals then
        some (g.productions.foldl (fun acc p =>
          if p.head == symbolAfterDot then
            if acc.any (fun it => areItemsEqual it ⟨p.id, 0⟩) then acc
            else acc ++ [⟨p.id, 0⟩]
          else acc) l)
      else some l
    | none => some l

/-- The `for (let i = 0; i < closure.length; i++)` loop of `getClosure`;
the bound is re-read after every append, so items appended during the loop
are processed by it as well.  Fuel is consumed once per index. -/
def closureInner (g : Grammar) : Nat → Nat → List LRItem → Option (List LRItem)
  | 0, _, l => some l
  | fuel+1, i, l =>
    if h : i < l.length then
      match closureProcessItem g l l[i] with
      | none => none
      | some l2 => closureInner g fuel (i+1) l2
    else some l

/-- Fuel sufficient for one full run of the inner loop: the loop index can
reach at most the current length plus the number of productions, since every
append is a previously-absent dot-0 item of some production. -/
def innerFuel (g : Grammar) (l : List LRItem) : Nat :=
  l.length + g.productions.length + 1

/-- The `while (changed)` wrapper of `getClosure`: `changed` is exactly
"this pass appended something", i.e. the pass result differs from its
input. -/
def closureOuter (g : Grammar) : Nat → List LRItem → Option (List LRItem)
  | 0, l => some l
  | fuel+1, l =>
    match closureInner g (innerFuel g l) 0 l with
    | none => none
    | some l2 => if l2 == l then some l else closureOuter g fuel l2

/-- `getClosure` from `lr0.ts`.  The outer fuel bounds the number of
`while (changed)` passes; every pass that repeats strictly consumes one of
the at most `productions.length` absent candidate items, so the bound is
never reached. -/
def getClosure (items : List LRItem) (g : Grammar) : Option (List LRItem) :=
  closureOuter g (g.productions.length + 2) items

/-- The number of productions whose dot-0 item is still absent from `l`:
the potential function that bounds how much the closure loops can grow. -/
def freshCount (g : Grammar) (l : List LRItem) : Nat :=
  (g.productions.filter
    (fun p => !(l.any (fun it => areItemsEqual it ⟨p.id, 0⟩)))).length

theorem length_filter_mono {α : Type} (l : List α) (p q : α → Bool)
    (himp : ∀ a, q a = true → p a = true) :
    (l.filter q).length ≤ (l.filter p).length := by
  induction l with
  | nil => simp
  | cons b bs ih =>
    by_cases hq : q b = true
    · rw [List.filter_cons_of_pos hq, List.filter_cons_of_pos (himp b hq)]
      simpa using ih
    · rw [List.filter_cons_of_neg (by simpa using hq)]
      by_cases hp : p b = true
      · rw [List.filter_cons_of_pos hp]
        exact le_trans ih (by simp)
      · rw [List.filter_cons_of_neg (by simpa using hp)]
        exact ih

theorem length_filter_lt {α : Type} (l : List α) (p q : α → Bool)
    (himp : ∀ a, q a = true → p a = true)
    (a0 : α) (ha0 : a0 ∈ l) (hp : p a0 = true) (hq : q a0 = false) :
    (l.filter q).length < (l.filter p).length := by
  induction l with
  | nil => simp at ha0
  | cons b bs ih =>
    rcases List.mem_cons.mp ha0 with rfl | hmem
    · rw [List.filter_cons_of_pos hp, List.filter_cons_of_neg (by simp [hq])]
      exact Nat.lt_succ_of_le (length_filter_mono bs p q himp)
    · by_cases hqb : q b = true
      · rw [List.filter_cons_of_pos hqb, List.filter_cons_of_pos (himp b hqb)]
        simpa using ih hmem
      · rw [List.filter_cons_of_neg (by simpa using hqb)]
        by_cases hpb : p b = true
        · rw [List.filter_cons_of_pos hpb]
          exact Nat.lt_succ_of_lt (ih hmem)
        · rw [List.filter_cons_of_neg (by simpa using hpb)]
          exact ih hmem

theorem areItemsEqual_refl (a : LRItem) : areItemsEqual a a = true := by
  simp [areItemsEqual]

theorem freshCount_append_le (g : Grammar) (l rest : List LRItem) :
    freshCount g (l ++ rest) ≤ freshCount g l := by
  apply length_filter_mono
  intro p hp
  simp only [Bool.not_eq_true', List.any_eq_false] at hp ⊢
  intro it hit
  exact hp it (List.mem_append_left _ hit)

theorem freshCount_append_lt (g : Grammar) (l : List LRItem) (p0 : Production)
    (hmem : p0 ∈ g.productions)
    (habs : l.any (fun it => areItemsEqual it ⟨p0.id, 0⟩) = false) :
    freshCount g (l ++ [(⟨p0.id, 0⟩ : LRItem)]) < freshCount g l := by
  simp only [freshCount]
  have himp : ∀ a : Production,
      (!((l ++ [(⟨p0.id, 0⟩ : LRItem)]).any (fun it => areItemsEqual it ⟨a.id, 0⟩))) = true →
      (!(l.any (fun it => areItemsEqual it ⟨a.id, 0⟩))) = true := by
    intro a ha
    simp only [Bool.not_eq_true', List.any_eq_false] at ha ⊢
    intro it hit
    exact ha it (List.mem_append_left _ hit)
  have hq : ((l ++ [(⟨p0.id, 0⟩ : LRItem)]).any
      (fun it => areItemsEqual it ⟨p0.id, 0⟩)) = true :=
    List.any_eq_true.mpr ⟨⟨p0.id, 0⟩,
      List.mem_append_right _ (List.mem_singleton_self _), areItemsEqual_refl _⟩
  exact length_filter_lt g.productions _ _ himp p0 hmem (by simp [habs]) (by simp [hq])

/-- The closure fold over productions only appends, and the sum of list
length and absent-candidate count never increases. -/
theorem closureFold_extends (g : Grammar) (symbolAfterDot : String) :
    ∀ (ps : List Production) (acc : List LRItem),
      (∀ p ∈ ps, p ∈ g.productions) →
      (∃ rest, ps.foldl (fun acc p =>
          if p.head == symbolAfterDot then
            if acc.any (fun it => areItemsEqual it ⟨p.id, 0⟩) then acc
            else acc ++ [⟨p.id, 0⟩]
          else acc) acc = acc ++ rest) ∧
      (ps.foldl (fun acc p =>
          if p.head == symbolAfterDot then
            if acc.any (fun it => areItemsEqual it ⟨p.id, 0⟩) then acc
            else acc ++ [⟨p.id, 0⟩]
          else acc) acc).length +
        freshCount g (ps.foldl (fun acc p =>
          if p.head == symbolAfterDot then
            if acc.any (fun it => areItemsEqual it ⟨p.id, 0⟩) then acc
            else acc ++ [⟨p.id, 0⟩]
          else acc) acc) ≤ acc.length + freshCount g acc := by
  intro ps
  induction ps with
  | nil => intro acc _; exact ⟨⟨[], by simp⟩, le_refl _⟩
  | cons p ps ih =>
    intro acc hmem
    simp only [List.foldl_cons]
    by_cases hhead : (p.head == symbolAfterDot) = true
    · rw [if_pos hhead]
      by_cases hany : acc.any (fun it => areItemsEqual it ⟨p.id, 0⟩) = true
      · rw [if_pos hany]
        exact ih acc (fun q hq => hmem q (List.mem_cons_of_mem _ hq))
      · rw [if_neg (by simpa using hany)]
        have hrec := ih (acc ++ [⟨p.id, 0⟩])
          (fun q hq => hmem q (List.mem_cons_of_mem _ hq))
        refine ⟨?_, ?_⟩
        · rcases hrec.1 with ⟨rest, hrest⟩
          exact ⟨⟨p.id, 0⟩ :: rest, by rw [hrest]; simp⟩
        · have hdrop := freshCount_append_lt g acc p
            (hmem p (List.mem_cons_self _ _)) (by simpa using hany)
          have hlen : (acc ++ [(⟨p.id, 0⟩ : LRItem)]).length = acc.length + 1 := by simp
          omega
    · rw [if_neg hhead]
      exact ih acc (fun q hq => hmem q (List.mem_cons_of_mem _ hq))

/-- One closure item step only appends and never increases the potential. -/
theorem closureProcessItem_extends (g : Grammar) (l : List LRItem) (item : LRItem)
    (l2 : List LRItem) (h : closureProcessItem g l item = some l2) :
    (∃ rest, l2 = l ++ rest) ∧
    l2.length + freshCount g l2 ≤ l.length + freshCount g l := by
  rw [closureProcessItem] at h
  split at h
  · cases h
  · split at h
    · split at h
      · cases h
        exact closureFold_extends g _ g.productions l (fun _ hq => hq)
      · cases h
        exact ⟨⟨[], by simp⟩, le_refl _⟩
    · cases h
      exact ⟨⟨[], by simp⟩, le_refl _⟩

/-- A full inner-loop run only appends and never increases the potential. -/
theorem closureInner_extends (g : Grammar) :
    ∀ (fuel i : Nat) (l l2 : List LRItem),
      closureInner g fuel i l = some l2 →
      (∃ rest, l2 = l ++ rest) ∧
      l2.length + freshCount g l2 ≤ l.length + freshCount g l := by
  intro fuel
  induction fuel with
  | zero =>
    intro i l l2 h
    simp only [closureInner] at h
    cases h
    exact ⟨⟨[], by simp⟩, le_refl _⟩
  | succ fuel ih =>
    intro i l l2 h
    simp only [closureInner] at h
    by_cases hi : i < l.length
    · rw [dif_pos hi] at h
      rcases hstep : closureProcessItem g l l[i] with _ | lmid
      · rw [hstep] at h; cases h
      · rw [hstep] at h
        have h1 := closureProcessItem_extends g l _ lmid hstep
        have h2 := ih (i+1) lmid l2 h
        rcases h1.1 with ⟨r1, hr1⟩
        rcases h2.1 with ⟨r2, hr2⟩
        refine ⟨⟨r1 ++ r2, by rw [hr2, hr1, List.append_assoc]⟩, ?_⟩
        exact le_trans h2.2 h1.2
    · rw [dif_neg hi] at h
      cases h
      exact ⟨⟨[], by simp⟩, le_refl _⟩

/-- When the outer fuel exceeds the potential, a successful closure run
always ends on a pass that changed nothing, so its result is a fixpoint of
the inner loop. -/
theorem closureOuter_fixpoint (g : Grammar) :
    ∀ (fuel : Nat) (l R : List LRItem),
      freshCount g l < fuel →
      closureOuter g fuel l = some R →
      closureInner g (innerFuel g R) 0 R = some R := by
  intro fuel
  induction fuel with
  | zero => intro l R hlt; omega
  | succ fuel ih =>
    intro l R hlt h
    simp only [closureOuter] at h
    split at h
    · cases h
    · next l2 hpass =>
      split at h
      · next heq =>
        cases h
        rw [beq_iff_eq] at heq
        subst heq
        exact hpass
      · next heq =>
        have hext := closureInner_extends g _ 0 l l2 hpass
        rcases hext.1 with ⟨rest, hrest⟩
        have hne : rest.length ≠ 0 := by
          intro hr
          exact heq (by simp [hrest, List.eq_nil_of_length_eq_zero hr])
        have hlen : l.length < l2.length := by
          rw [hrest, List.length_append]
          omega
        have hfc : freshCount g l2 < freshCount g l := by
          have := hext.2
          omega
        exact ih l2 R (by omega) h

/-- C10: `getClosure` is extensive (every input item occurs, by value, in
any successful closure result) and idempotent (running `getClosure` on its
own successful result succeeds and returns it unchanged — in particular the
two results are equal as value-sets of items). -/
theorem closure_extensive_idempotent (g : Grammar) (I R : List LRItem)
    (h : getClosure I g = some R) :
    (∀ it ∈ I, it ∈ R) ∧ getClosure R g = some R := by
  constructor
  · intro it hit
    rw [getClosure] at h
    have : ∃ rest, R = I ++ rest := by
      clear hit
      generalize hfuel : g.productions.length + 2 = fuel at h
      clear hfuel
      induction fuel generalizing I with
      | zero =>
        simp only [closureOuter] at h
        cases h
        exact ⟨[], by simp⟩
      | succ fuel ih =>
        simp only [closureOuter] at h
        split at h
        · cases h
        · next l2 hpass =>
          split at h
          · cases h
            exact ⟨[], by simp⟩
          · rcases ih l2 h with ⟨r2, hr2⟩
            rcases (closureInner_extends g _ 0 I l2 hpass).1 with ⟨r1, hr1⟩
            exact ⟨r1 ++ r2, by rw [hr2, hr1, List.append_assoc]⟩
    rcases this with ⟨rest, hrest⟩
    rw [hrest]
    exact List.mem_append_left _ hit
  · have hfix := closureOuter_fixpoint g (g.productions.length + 2) I R
      (by
        have : freshCount g I ≤ g.productions.length := List.length_filter_le _ _
        omega)
      h
    rw [getClosure]
    have hfuel : 0 < g.productions.length + 2 := by omega
    rcases Nat.exists_eq_succ_of_ne_zero (Nat.pos_iff_ne_zero.mp hfuel) with ⟨k, hk⟩
    rw [hk]
    simp only [closureOuter]
    rw [hfix]
    simp

/-- C10 (witness): a concrete closure computation for the augmented grammar
of `S → a S | b`; the closure of the start item succeeds and is a fixpoint. -/
theorem closure_extensive_idempotent_witness :
    (⟨0, 0⟩ : LRItem) ∈ [(⟨0, 0⟩ : LRItem), ⟨1, 0⟩, ⟨2, 0⟩] ∧
    getClosure [⟨0, 0⟩, ⟨1, 0⟩, ⟨2, 0⟩]
      (augmentGrammar { productions := [{ head := "S", body := ["a", "S"], id := 0 },
                                        { head := "S", body := ["b"], id := 1 }]
                        terminals := ["a", "b"]
                        nonTerminals := ["S"]
                        startSymbol := "S" }) =
      some [⟨0, 0⟩, ⟨1, 0⟩, ⟨2, 0⟩] := by
  have h := closure_extensive_idempotent
    (augmentGrammar { productions := [{ head := "S", body := ["a", "S"], id := 0 },
                                      { head := "S", body := ["b"], id := 1 }]
                      terminals := ["a", "b"]
                      nonTerminals := ["S"]
                      startSymbol := "S" })
    [⟨0, 0⟩] [⟨0, 0⟩, ⟨1, 0⟩, ⟨2, 0⟩]
    (by decide)
  exact ⟨h.1 ⟨0, 0⟩ (by decide), h.2⟩

/-! ### LR(0) automaton construction (`lr0.ts`, `getGoto` and `buildDFA`) -/

/-- `getGoto` from `lr0.ts`: advance the dot across `symbol` in every item
that carries it immediately after the dot, then close.  `none` models the
TypeError of the non-null production lookup. -/
def getGoto (items : List LRItem) (symbol : String) (g : Grammar) :
    Option (List LRItem) :=
  match items.foldlM (fun (acc : List LRItem) item =>
      match g.productions.find? (fun p => p.id == item.productionId) with
      | none => none
      | some prod =>
        match prod.body[item.dotPosition]? with
        | some sym =>
          if sym == symbol then
            some (acc ++ [{ item with dotPosition := item.dotPosition + 1 }])
          else some acc
        | none => some acc) [] with
  | none => none
  | some nextItems => getClosure nextItems g

/-- JavaScript object assignment `transitions[symbol] = v` on the
association-list model of a `Record<string, number>`. -/
def setTrans (ts : List (String × Nat)) (sym : String) (v : Nat) :
    List (String × Nat) :=
  if ts.any (fun pr => pr.1 == sym) then
    ts.map (fun pr => if pr.1 == sym then (sym, v) else pr)
  else ts ++ [(sym, v)]

/-- The in-place mutation `currentState.transitions[symbol] = v` on the
state at index `i`. -/
def recordTrans (states : List DFAState) (i : Nat) (sym : String) (v : Nat) :
    List DFAState :=
  match states[i]? with
  | some st => states.set i { st with transitions := setTrans st.transitions sym v }
  | none => states

/-- Processing of one alphabet symbol for the worklist state at index `i`
inside `buildDFA`'s loop: skip the `$` and `ε` markers, compute the goto
set, skip if empty, otherwise link to an equal existing state or append a
new state with the next sequential id. -/
def dfaProcessSymbol (g : Grammar) (i : Nat) (states : List DFAState)
    (symbol : String) : Option (List DFAState) :=
  if symbol == "$" || symbol == EPS then some states
  else
    match states[i]? with
    | none => none
    | some cur =>
      match getGoto cur.items symbol g with
      | none => none
      | some nextItems =>
        if nextItems.length == 0 then some states
        else
          match states.findIdx? (fun s => areItemSetsEqual s.items nextItems) with
          | some j => some (recordTrans states i symbol j)
          | none =>
            some (recordTrans
              (states ++ [{ id := states.length, items := nextItems, transitions := [] }])
              i symbol states.length)

/-- The `while (i < states.length)` worklist loop of `buildDFA`,
fuel-bounded; the alphabet is non-terminals followed by terminals, as the
source spreads them. -/
def dfaLoop (g : Grammar) : Nat → Nat → List DFAState → Option (List DFAState)
  | 0, _, states => some states
  | fuel+1, i, states =>
    if i < states.length then
      match (g.nonTerminals ++ g.terminals).foldlM
          (fun st sym => dfaProcessSymbol g i st sym) states with
      | none => none
      | some states2 => dfaLoop g fuel (i+1) states2
    else some states

/-- An upper bound on the number of distinct LR items of a grammar. -/
def itemBound (g : Grammar) : Nat :=
  g.productions.foldl (fun acc p => acc + p.body.length + 1) 0

/-- `buildDFA` from `lr0.ts`.  The fuel `2 ^ itemBound g + 1` dominates the
number of distinct item sets and hence of worklist iterations of the
source's unbounded loop. -/
def buildDFA (g : Grammar) : Option (List DFAState) :=
  match g.productions.head? with
  | none => none
  | some p0 =>
    match getClosure [{ productionId := p0.id, dotPosition := 0 }] g with
    | none => none
    | some initialItems =>
      dfaLoop g (2 ^ itemBound g + 1) 0 [{ id := 0, items := initialItems, transitions := [] }]

/-- The loop invariant of `buildDFA`: a non-empty state list with dense ids,
pairwise value-distinct item sets, no transition on the `$` or `ε` markers,
and the initial closure stored at index 0. -/
def DFAInv (init : List LRItem) (states : List DFAState) : Prop :=
  states ≠ [] ∧
  (∀ (j : Nat) (st : DFAState), states[j]? = some st → st.id = j) ∧
  (∀ (j k : Nat) (s1 s2 : DFAState), states[j]? = some s1 → states[k]? = some s2 → j ≠ k →
     areItemSetsEqual s1.items s2.items = false) ∧
  (∀ s ∈ states, ∀ pr ∈ s.transitions, pr.1 ≠ "$" ∧ pr.1 ≠ EPS) ∧
  (∀ s0, states[0]? = some s0 → s0.items = init)

theorem getElem?_some_mem {α : Type} {l : List α} {i : Nat} {a : α}
    (h : l[i]? = some a) : a ∈ l := by
  have hi : i < l.length := by
    by_contra hc
    rw [List.getElem?_eq_none (by omega)] at h
    cases h
  rw [List.getElem?_eq_getElem hi] at h
  cases h
  exact List.getElem_mem hi

theorem mem_setTrans {ts : List (String × Nat)} {sym : String} {v : Nat}
    {pr : String × Nat} (h : pr ∈ setTrans ts sym v) :
    pr ∈ ts ∨ pr = (sym, v) := by
  rw [setTrans] at h
  split_ifs at h
  · rcases List.mem_map.mp h with ⟨orig, horig, heq⟩
    by_cases hx : (orig.1 == sym) = true
    · rw [if_pos hx] at heq
      exact Or.inr heq.symm
    · rw [if_neg (by simpa using hx)] at heq
      exact Or.inl (heq ▸ horig)
  · rcases List.mem_append.mp h with h1 | h2
    · exact Or.inl h1
    · exact Or.inr (by simpa using h2)

theorem recordTrans_getElem? (states : List DFAState) (i : Nat) (sym : String)
    (v : Nat) (j : Nat) (st2 : DFAState)
    (h : (recordTrans states i sym v)[j]? = some st2) :
    ∃ st, states[j]? = some st ∧ st2.id = st.id ∧ st2.items = st.items := by
  rw [recordTrans] at h
  split at h
  · next st hst =>
    rw [List.getElem?_set] at h
    by_cases hij : i = j
    · rw [if_pos hij] at h
      have hlt : i < states.length := by
        by_contra hc
        rw [List.getElem?_eq_none (by omega)] at hst
        cases hst
      rw [if_pos hlt] at h
      cases h
      exact ⟨st, hij ▸ hst, rfl, rfl⟩
    · rw [if_neg hij] at h
      exact ⟨st2, h, rfl, rfl⟩
  · exact ⟨st2, h, rfl, rfl⟩

theorem recordTrans_transMem (states : List DFAState) (i : Nat) (sym : String)
    (v : Nat) (s2 : DFAState) (hs2 : s2 ∈ recordTrans states i sym v)
    (pr : String × Nat) (hpr : pr ∈ s2.transitions) :
    (∃ s ∈ states, pr ∈ s.transitions) ∨ pr.1 = sym := by
  rw [recordTrans] at hs2
  split at hs2
  · next st hst =>
    rcases List.mem_or_eq_of_mem_set hs2 with hmem | rfl
    · exact Or.inl ⟨s2, hmem, hpr⟩
    · rcases mem_setTrans hpr with hold | rfl
      · exact Or.inl ⟨st, getElem?_some_mem hst, hold⟩
      · exact Or.inr rfl
  · exact Or.inl ⟨s2, hs2, hpr⟩

theorem recordTrans_inv (init : List LRItem) (states : List DFAState) (i : Nat)
    (sym : String) (v : Nat) (hinv : DFAInv init states)
    (hs1 : sym ≠ "$") (hs2 : sym ≠ EPS) :
    DFAInv init (recordTrans states i sym v) := by
  obtain ⟨hne, hid, hpw, htr, hhd⟩ := hinv
  refine ⟨?_, ?_, ?_, ?_, ?_⟩
  · intro hc
    have : (recordTrans states i sym v).length = 0 := by rw [hc]; rfl
    rw [recordTrans] at this
    have hlen : states.length = 0 := by
      revert this
      split
      · rw [List.length_set]; exact id
      · exact id
    exact hne (List.eq_nil_of_length_eq_zero hlen)
  · intro j st2 h
    rcases recordTrans_getElem? states i sym v j st2 h with ⟨st, hst, hid2, _⟩
    rw [hid2]
    exact hid j st hst
  · intro j k s1 s2 h1 h2 hjk
    rcases recordTrans_getElem? states i sym v j s1 h1 with ⟨t1, ht1, _, hi1⟩
    rcases recordTrans_getElem? states i sym v k s2 h2 with ⟨t2, ht2, _, hi2⟩
    rw [hi1, hi2]
    exact hpw j k t1 t2 ht1 ht2 hjk
  · intro s2 hmem pr hpr
    rcases recordTrans_transMem states i sym v s2 hmem pr hpr with ⟨s, hs, hin⟩ | hp
    · exact htr s hs pr hin
    · exact ⟨hp ▸ hs1, hp ▸ hs2⟩
  · intro s0 h
    rcases recordTrans_getElem? states i sym v 0 s0 h with ⟨st, hst, _, hi0⟩
    rw [hi0]
    exact hhd st hst

theorem getElem?_append_singleton {α : Type} (l : List α) (a : α) (j : Nat) (x : α)
    (h : (l ++ [a])[j]? = some x) : l[j]? = some x ∨ (j = l.length ∧ x = a) := by
  rw [List.getElem?_append] at h
  by_cases hj : j < l.length
  · rw [if_pos hj] at h
    exact Or.inl h
  · rw [if_neg hj] at h
    rcases Nat.lt_or_ge (j - l.length) 1 with hlt | hge
    · have h0 : j - l.length = 0 := by omega
      rw [h0] at h
      simp at h
      exact Or.inr ⟨by omega, h.symm⟩
    · rw [List.getElem?_eq_none (by simpa using hge)] at h
      cases h

theorem append_fresh_inv (init : List LRItem) (states : List DFAState)
    (nextItems : List LRItem) (hinv : DFAInv init states)
    (hfresh : ∀ s ∈ states, areItemSetsEqual s.items nextItems = false) :
    DFAInv init (states ++ [{ id := states.length, items := nextItems, transitions := [] }]) := by
  obtain ⟨hne, hid, hpw, htr, hhd⟩ := hinv
  have hget := fun (j : Nat) (st : DFAState) =>
    getElem?_append_singleton states ({ id := states.length, items := nextItems, transitions := [] } : DFAState) j st
  refine ⟨by simp, ?_, ?_, ?_, ?_⟩
  · intro j st h
    rcases hget j st h with h1 | ⟨rfl, rfl⟩
    · exact hid j st h1
    · rfl
  · intro j k s1 s2 h1 h2 hjk
    rcases hget j s1 h1 with hj1 | ⟨rfl, rfl⟩ <;> rcases hget k s2 h2 with hk1 | ⟨rfl, rfl⟩
    · exact hpw j k s1 s2 hj1 hk1 hjk
    · exact hfresh s1 (getElem?_some_mem hj1)
    · rw [areItemSetsEqual_symm]
      exact hfresh s2 (getElem?_some_mem hk1)
    · omega
  · intro s hmem pr hpr
    rcases List.mem_append.mp hmem with h1 | h2
    · exact htr s h1 pr hpr
    · have : s = ({ id := states.length, items := nextItems, transitions := [] } : DFAState) := by simpa using h2
      rw [this] at hpr
      simp at hpr
  · intro s0 h
    have h0 : (0 : Nat) < states.length := by
      rcases states with _ | ⟨a, as⟩
      · exact absurd rfl hne
      · simp
    rw [List.getElem?_append, if_pos h0] at h
    exact hhd s0 h

theorem dfaProcessSymbol_inv (g : Grammar) (init : List LRItem) (i : Nat)
    (states states2 : List DFAState) (sym : String)
    (hinv : DFAInv init states)
    (h : dfaProcessSymbol g i states sym = some states2) :
    DFAInv init states2 := by
  rw [dfaProcessSymbol] at h
  split_ifs at h with hskip
  · cases h; exact hinv
  · have hs1 : sym ≠ "$" := by
      intro hc; exact hskip (by simp [hc])
    have hs2 : sym ≠ EPS := by
      intro hc; exact hskip (by simp [hc])
    split at h
    · cases h
    · split at h
      · cases h
      · next nextItems hgoto =>
        split_ifs at h with hlen
        · cases h; exact hinv
        · split at h
          · cases h
            exact recordTrans_inv init states i sym _ hinv hs1 hs2
          · next hfind =>
            cases h
            apply recordTrans_inv init _ i sym _ _ hs1 hs2
            apply append_fresh_inv init states nextItems hinv
            intro s hs
            have := List.findIdx?_eq_none_iff.mp hfind s hs
            simpa using this

theorem foldlM_dfa_inv (g : Grammar) (init : List LRItem) (i : Nat) :
    ∀ (syms : List String) (states states2 : List DFAState),
      syms.foldlM (fun st sym => dfaProcessSymbol g i st sym) states = some states2 →
      DFAInv init states → DFAInv init states2 := by
  intro syms
  induction syms with
  | nil =>
    intro states states2 h hinv
    simp only [List.foldlM_nil] at h
    cases h
    exact hinv
  | cons sym syms ih =>
    intro states states2 h hinv
    rw [List.foldlM_cons] at h
    rcases hstep : dfaProcessSymbol g i states sym with _ | mid
    · rw [hstep] at h; cases h
    · rw [hstep] at h
      simp only [Option.bind_eq_bind] at h
      exact ih mid states2 h (dfaProcessSymbol_inv g init i states mid sym hinv hstep)

theorem dfaLoop_inv (g : Grammar) (init : List LRItem) :
    ∀ (fuel i : Nat) (states R : List DFAState),
      dfaLoop g fuel i states = some R → DFAInv init states → DFAInv init R := by
  intro fuel
  induction fuel with
  | zero =>
    intro i states R h hinv
    simp only [dfaLoop] at h
    cases h
    exact hinv
  | succ fuel ih =>
    intro i states R h hinv
    simp only [dfaLoop] at h
    split_ifs at h with hi
    · split at h
      · cases h
      · next states2 hfold =>
        exact ih (i+1) states2 R h (foldlM_dfa_inv g init i _ states states2 hfold hinv)
    · cases h
      exact hinv

/-- C8: for every grammar whose first production has id 0 (in particular
every augmented grammar), a successful `buildDFA` run returns a non-empty
state list in which state 0's item set is the closure of the single item
`{production 0, dot 0}`, every state's id equals its index, no two distinct
states have value-equal item sets, and no transition is labeled with the
`$` or `ε` marker. -/
theorem buildDFA_invariants (g : Grammar) (R : List DFAState) (p0 : Production)
    (hp0 : g.productions.head? = some p0) (hid0 : p0.id = 0)
    (h : buildDFA g = some R) :
    R ≠ [] ∧
    (∃ init, getClosure [{ productionId := 0, dotPosition := 0 }] g = some init ∧
       ∀ s0, R[0]? = some s0 → s0.items = init) ∧
    (∀ (j : Nat) (st : DFAState), R[j]? = some st → st.id = j) ∧
    (∀ (j k : Nat) (s1 s2 : DFAState), R[j]? = some s1 → R[k]? = some s2 → j ≠ k →
       areItemSetsEqual s1.items s2.items = false) ∧
    (∀ s ∈ R, ∀ pr ∈ s.transitions, pr.1 ≠ "$" ∧ pr.1 ≠ EPS) := by
  rw [buildDFA] at h
  split at h
  · cases h
  · next q hq =>
    have hq2 : q = p0 := by rw [hp0] at hq; exact (Option.some.inj hq).symm
    subst hq2
    rw [hid0] at h
    split at h
    · cases h
    · next init hcl =>
      have hinit : DFAInv init [{ id := 0, items := init, transitions := [] }] := by
        refine ⟨by simp, ?_, ?_, ?_, ?_⟩
        · intro j st hst
          rcases j with _ | j
          · simp at hst; rw [← hst]
          · rw [List.getElem?_eq_none (by simp)] at hst; cases hst
        · intro j k s1 s2 h1 h2 hjk
          rcases j with _ | j
          · rcases k with _ | k
            · exact absurd rfl hjk
            · rw [List.getElem?_eq_none (by simp)] at h2; cases h2
          · rw [List.getElem?_eq_none (by simp)] at h1; cases h1
        · intro s hs pr hpr
          have : s = ({ id := 0, items := init, transitions := [] } : DFAState) := by simpa using hs
          rw [this] at hpr
          simp at hpr
        · intro s0 h0
          simp at h0
          rw [← h0]
      have hres := dfaLoop_inv g init _ 0 _ R h hinit
      obtain ⟨hne, hid, hpw, htr, hhd⟩ := hres
      exact ⟨hne, ⟨init, hcl, hhd⟩, hid, hpw, htr⟩

/-- Concrete input grammar for the C8 witness: the augmented grammar of
`S → a`. -/
def dfaWitnessGrammar : Grammar :=
  augmentGrammar { productions := [{ head := "S", body := ["a"], id := 0 }],
                   terminals := ["a", "$"], nonTerminals := ["S"], startSymbol := "S" }

/-- The automaton `buildDFA` produces for `dfaWitnessGrammar`. -/
def dfaWitnessStates : List DFAState :=
  [{ id := 0,
     items := [{ productionId := 0, dotPosition := 0 }, { productionId := 1, dotPosition := 0 }],
     transitions := [("S", 1), ("a", 2)] },
   { id := 1, items := [{ productionId := 0, dotPosition := 1 }], transitions := [] },
   { id := 2, items := [{ productionId := 1, dotPosition := 1 }], transitions := [] }]

/-- C8 (witness): the automaton invariants instantiated on a concrete run. -/
theorem buildDFA_invariants_witness :
    buildDFA dfaWitnessGrammar = some dfaWitnessStates ∧
    dfaWitnessStates ≠ [] ∧
    (∀ (j : Nat) (st : DFAState), dfaWitnessStates[j]? = some st → st.id = j) := by
  have h := buildDFA_invariants dfaWitnessGrammar dfaWitnessStates
    { head := "S" ++ apos, body := ["S"], id := 0 }
    (by decide) rfl (by decide)
  exact ⟨by decide, h.1, h.2.2.1⟩

/-! ### FIRST/FOLLOW computation (`grammar.ts`, `computeFirstFollow`) -/

/-- The `Record<string, Set<string>>` maps of `computeFirstFollow`:
`none` models an absent key (whose dereference would throw). -/
abbrev SymMap := String → Option (List String)

/-- `m[key].add(v)`: insert `v` into the set stored at `key`.  A no-op on an
absent key; the source throws in that situation, and every caller below
either checks presence first or is invoked only where presence holds. -/
def mapAdd (m : SymMap) (key v : String) : SymMap :=
  fun k => if k = key then (m key).map (fun s => setAdd s v) else m k

/-- The initialization of `first`: empty sets for non-terminals, singleton
sets for terminals, `{ε}` for `ε` (later writes shadow earlier ones, as the
source loops do). -/
def firstInit (g : Grammar) : SymMap :=
  let m1 : SymMap := fun k => if k ∈ g.nonTerminals then some [] else none
  let m2 : SymMap := fun k => if k ∈ g.terminals then some [k] else m1 k
  fun k => if k = EPS then some [EPS] else m2 k

/-- The initialization of `follow`: empty sets for all non-terminals. -/
def followInit (g : Grammar) : SymMap :=
  fun k => if k ∈ g.nonTerminals then some [] else none

/-- The body scan of one FIRST pass for one production: add
`FIRST(symbol) \ {ε}` to `FIRST(head)` and stop at the first non-nullable
symbol; returns the updated map and the `allNullable` flag. -/
def firstBodyLoop (head : String) : List String → SymMap → SymMap × Bool
  | [], m => (m, true)
  | s :: rest, m =>
    let symbolFirst := (m s).getD [s]
    let m2 := symbolFirst.foldl (fun acc f => if f ≠ EPS then mapAdd acc head f else acc) m
    if EPS ∈ symbolFirst then firstBodyLoop head rest m2 else (m2, false)

/-- One FIRST pass over a single production; `none` models the throw when
`first[head]` is absent (`first[head].size` on `undefined`). -/
def firstPassProd (m : SymMap) (p : Production) : Option (SymMap × Bool) :=
  match m p.head with
  | none => none
  | some before =>
    match firstBodyLoop p.head p.body m with
    | (m2, allNullable) =>
      if allNullable then
        some (mapAdd m2 p.head EPS,
          decide ((((mapAdd m2 p.head EPS) p.head).getD []).length ≠ before.length))
      else
        some (m2, decide (((m2 p.head).getD []).length ≠ before.length))

/-- One FIRST pass over all productions, accumulating the changed flag. -/
def firstPass (g : Grammar) (m : SymMap) : Option (SymMap × Bool) :=
  g.productions.foldlM (fun acc p =>
    match firstPassProd acc.1 p with
    | none => none
    | some (m2, ch) => some (m2, acc.2 || ch)) (m, false)

/-- The `while (changed)` FIRST fixpoint loop, fuel-bounded. -/
def firstLoop (g : Grammar) : Nat → SymMap → Option SymMap
  | 0, m => some m
  | fuel+1, m =>
    match firstPass g m with
    | none => none
    | some (m2, ch) => if ch then firstLoop g fuel m2 else some m2

/-- JavaScript `String.prototype.endsWith` on the character lists. -/
def jsEndsWith (s suffix : String) : Bool := suffix.data.isSuffixOf s.data

/-- The FOLLOW seeding: `$` into FOLLOW(start symbol) (`none` when the
start symbol has no FOLLOW entry, modelling the throw), and `$` into FOLLOW
of the first non-terminal not ending with an apostrophe, when one exists. -/
def followSeed (g : Grammar) (f0 : SymMap) : Option SymMap :=
  match f0 g.startSymbol with
  | none => none
  | some _ =>
    let f1 := mapAdd f0 g.startSymbol "$"
    match g.nonTerminals.find? (fun nt => !(jsEndsWith nt apos)) with
    | some userStart => some (mapAdd f1 userStart "$")
    | none => some f1

/-- The β scan of one FOLLOW step: add `FIRST(sym) \ {ε}` to `FOLLOW(B)`
and stop at the first non-nullable symbol; returns the updated map and the
`betaIsNullable` flag. -/
def followBetaLoop (first : SymMap) (B : String) : List String → SymMap → SymMap × Bool
  | [], m => (m, true)
  | sym :: rest, m =>
    let symFirst := (first sym).getD [sym]
    let m2 := symFirst.foldl (fun acc f => if f ≠ EPS then mapAdd acc B f else acc) m
    if EPS ∈ symFirst then followBetaLoop first B rest m2 else (m2, false)

/-- One FOLLOW step for the body occurrence `B` with trailing symbols
`beta`: skipped for terminals; `none` models the throws on absent
`follow[B]` or `follow[head]`. -/
def followProdStep (g : Grammar) (first : SymMap) (head : String)
    (B : String) (beta : List String) (m : SymMap) : Option (SymMap × Bool) :=
  if !(g.nonTerminals.contains B) then some (m, false)
  else
    match m B with
    | none => none
    | some before =>
      match followBetaLoop first B beta m with
      | (m2, betaIsNullable) =>
        if betaIsNullable then
          match m2 head with
          | none => none
          | some headSet =>
            some (headSet.foldl (fun acc f => if f ≠ EPS then mapAdd acc B f else acc) m2,
              decide ((((headSet.foldl (fun acc f => if f ≠ EPS then mapAdd acc B f else acc) m2)
                B).getD []).length ≠ before.length))
        else
          some (m2, decide (((m2 B).getD []).length ≠ before.length))

/-- The position scan of one FOLLOW pass over one production body. -/
def followProdLoop (g : Grammar) (first : SymMap) (head : String) :
    List String → SymMap → Bool → Option (SymMap × Bool)
  | [], m, changed => some (m, changed)
  | B :: beta, m, changed =>
    match followProdStep g first head B beta m with
    | none => none
    | some (m2, ch) => followProdLoop g first head beta m2 (changed || ch)

/-- One FOLLOW pass over all productions. -/
def followPass (g : Grammar) (first : SymMap) (m : SymMap) : Option (SymMap × Bool) :=
  g.productions.foldlM (fun acc p =>
    match followProdLoop g first p.head p.body acc.1 false with
    | none => none
    | some (m2, ch) => some (m2, acc.2 || ch)) (m, false)

/-- The `while (changed)` FOLLOW fixpoint loop, fuel-bounded. -/
def followLoop (g : Grammar) (first : SymMap) : Nat → SymMap → Option SymMap
  | 0, m => some m
  | fuel+1, m =>
    match followPass g first m with
    | none => none
    | some (m2, ch) => if ch then followLoop g first fuel m2 else some m2

/-- Fuel dominating the number of fixpoint passes (each repeating pass grows
at least one of the finitely many bounded sets). -/
def ffFuel (g : Grammar) : Nat :=
  (g.nonTerminals.length + g.terminals.length + 1) *
    (g.nonTerminals.length + g.terminals.length + 1) + 1

/-- `computeFirstFollow` from `grammar.ts`. -/
def computeFirstFollow (g : Grammar) : Option FirstFollowSets :=
  match firstLoop g (ffFuel g) (firstInit g) with
  | none => none
  | some first =>
    match followSeed g (followInit g) with
    | none => none
    | some f1 =>
      match followLoop g first (ffFuel g) f1 with
      | none => none
      | some follow => some { first := first, follow := follow }

theorem mem_setAdd_self (s : List String) (x : String) : x ∈ setAdd s x := by
  rw [setAdd]
  split_ifs with h
  · exact h
  · exact List.mem_append_right _ (List.mem_singleton_self _)

theorem mem_setAdd_of_mem {s : List String} {x y : String} (h : y ∈ s) :
    y ∈ setAdd s x := by
  rw [setAdd]
  split_ifs
  · exact h
  · exact List.mem_append_left _ h

theorem mapAdd_mem_preserved {m : SymMap} {k' v' : String} (key v : String)
    (h : v' ∈ (m k').getD []) : v' ∈ ((mapAdd m key v) k').getD [] := by
  rw [mapAdd]
  split_ifs with hk
  · subst hk
    rcases hm : m k' with _ | l
    · rw [hm] at h; simp at h
    · rw [hm] at h
      simp only [hm, Option.map_some, Option.getD_some] at *
      exact mem_setAdd_of_mem h
  · exact h

theorem mapAdd_adds {m : SymMap} {key : String} (l : List String)
    (hm : m key = some l) (v : String) : v ∈ ((mapAdd m key v) key).getD [] := by
  rw [mapAdd]
  simp only [if_pos rfl, hm, Option.map_some, Option.getD_some]
  exact mem_setAdd_self l v

theorem mapAdd_isSome {m : SymMap} {key v k' : String}
    (h : (m k').isSome = true) : ((mapAdd m key v) k').isSome = true := by
  rw [mapAdd]
  split_ifs with hk
  · subst hk
    rcases hm : m k' with _ | l
    · rw [hm] at h; cases h
    · simp [hm]
  · exact h

theorem foldl_mapAdd_mem (B : String) :
    ∀ (xs : List String) (m : SymMap) (k' v' : String),
      v' ∈ (m k').getD [] →
      v' ∈ ((xs.foldl (fun acc f => if f ≠ EPS then mapAdd acc B f else acc) m) k').getD [] := by
  intro xs
  induction xs with
  | nil => intro m k' v' h; exact h
  | cons f rest ih =>
    intro m k' v' h
    rw [List.foldl_cons]
    apply ih
    split_ifs
    · exact mapAdd_mem_preserved _ _ h
    · exact h

theorem foldl_mapAdd_isSome (B : String) :
    ∀ (xs : List String) (m : SymMap) (k' : String),
      (m k').isSome = true →
      ((xs.foldl (fun acc f => if f ≠ EPS then mapAdd acc B f else acc) m) k').isSome = true := by
  intro xs
  induction xs with
  | nil => intro m k' h; exact h
  | cons f rest ih =>
    intro m k' h
    rw [List.foldl_cons]
    apply ih
    split_ifs
    · exact mapAdd_isSome h
    · exact h

theorem foldl_mapAdd_adds (B : String) :
    ∀ (xs : List String) (m : SymMap) (v : String),
      (m B).isSome = true → v ∈ xs → v ≠ EPS →
      v ∈ ((xs.foldl (fun acc f => if f ≠ EPS then mapAdd acc B f else acc) m) B).getD [] := by
  intro xs
  induction xs with
  | nil => intro m v _ hv; simp at hv
  | cons f rest ih =>
    intro m v hsome hv hne
    rw [List.foldl_cons]
    rcases List.mem_cons.mp hv with rfl | hv'
    · rw [if_pos hne]
      apply foldl_mapAdd_mem
      rcases Option.isSome_iff_exists.mp hsome with ⟨l, hl⟩
      exact mapAdd_adds l hl v
    · apply ih
      · split_ifs
        · exact mapAdd_isSome hsome
        · exact hsome
      · exact hv'
      · exact hne

theorem followBetaLoop_mem (first : SymMap) (B : String) :
    ∀ (beta : List String) (m : SymMap) (k' v' : String),
      v' ∈ (m k').getD [] → v' ∈ ((followBetaLoop first B beta m).1 k').getD [] := by
  intro beta
  induction beta with
  | nil => intro m k' v' h; exact h
  | cons sym rest ih =>
    intro m k' v' h
    rw [followBetaLoop]
    split_ifs
    · exact ih _ k' v' (foldl_mapAdd_mem B _ m k' v' h)
    · exact foldl_mapAdd_mem B _ m k' v' h

theorem followProdStep_mem (g : Grammar) (first : SymMap) (head B : String)
    (beta : List String) (m m2 : SymMap) (ch : Bool)
    (h : followProdStep g first head B beta m = some (m2, ch))
    (k' v' : String) (hv : v' ∈ (m k').getD []) : v' ∈ (m2 k').getD [] := by
  rw [followProdStep] at h
  split at h
  · cases h; exact hv
  · split at h
    · cases h
    · split at h
      next m1 bNull hbeta =>
        have hm1 : v' ∈ (m1 k').getD [] := by
          have hb := followBetaLoop_mem first B beta m k' v' hv
          rw [hbeta] at hb
          exact hb
        split at h
        · split at h
          · cases h
          · cases h
            exact foldl_mapAdd_mem B _ _ k' v' hm1
        · cases h
          exact hm1

theorem followProdLoop_mem (g : Grammar) (first : SymMap) (head : String) :
    ∀ (body : List String) (m m2 : SymMap) (c c2 : Bool)
      (h : followProdLoop g first head body m c = some (m2, c2))
      (k' v' : String), v' ∈ (m k').getD [] → v' ∈ (m2 k').getD [] := by
  intro body
  induction body with
  | nil =>
    intro m m2 c c2 h k' v' hv
    rw [followProdLoop] at h
    cases h
    exact hv
  | cons B beta ih =>
    intro m m2 c c2 h k' v' hv
    rw [followProdLoop] at h
    split at h
    · cases h
    · next mmid cmid hstep =>
      exact ih mmid m2 _ c2 h k' v'
        (followProdStep_mem g first head B beta m mmid cmid hstep k' v' hv)

theorem followPass_foldlM_mem (g : Grammar) (first : SymMap) :
    ∀ (ps : List Production) (start : SymMap × Bool) (res : SymMap × Bool)
      (h : ps.foldlM (fun acc p =>
        match followProdLoop g first p.head p.body acc.1 false with
        | none => none
        | some (m2, ch) => some (m2, acc.2 || ch)) start = some res)
      (k' v' : String), v' ∈ (start.1 k').getD [] → v' ∈ (res.1 k').getD [] := by
  intro ps
  induction ps with
  | nil =>
    intro start res h k' v' hv
    simp only [List.foldlM_nil] at h
    cases h
    exact hv
  | cons p ps ih =>
    intro start res h k' v' hv
    rw [List.foldlM_cons] at h
    rcases hstep : followProdLoop g first p.head p.body start.1 false with _ | mb
    · rw [hstep] at h; cases h
    · rw [hstep] at h
      rcases mb with ⟨mmid, cmid⟩
      simp only [Option.bind_eq_bind] at h
      exact ih (mmid, start.2 || cmid) res h k' v'
        (followProdLoop_mem g first p.head p.body start.1 mmid false cmid hstep k' v' hv)

theorem followLoop_succ (g : Grammar) (first : SymMap) (fuel : Nat) (m : SymMap) :
    followLoop g first (fuel+1) m =
      match followPass g first m with
      | none => none
      | some (m2, ch) => if ch then followLoop g first fuel m2 else some m2 := rfl

theorem followLoop_mem (g : Grammar) (first : SymMap) :
    ∀ (fuel : Nat) (m R : SymMap) (h : followLoop g first fuel m = some R)
      (k' v' : String), v' ∈ (m k').getD [] → v' ∈ (R k').getD [] := by
  intro fuel
  induction fuel with
  | zero =>
    intro m R h k' v' hv
    simp only [followLoop] at h
    cases h
    exact hv
  | succ fuel ih =>
    intro m R h k' v' hv
    simp only [followLoop] at h
    split at h
    · cases h
    · next mmid cmid hpass =>
      have hmid : v' ∈ (mmid k').getD [] :=
        followPass_foldlM_mem g first g.productions (m, false) (mmid, cmid) hpass k' v' hv
      split_ifs at h
      · exact ih mmid R h k' v' hmid
      · cases h
        exact hmid

theorem followSeed_start (g : Grammar) (f0 f1 : SymMap)
    (h : followSeed g f0 = some f1) : "$" ∈ (f1 g.startSymbol).getD [] := by
  rw [followSeed] at h
  split at h
  · cases h
  · next l hl =>
    have hadd : "$" ∈ ((mapAdd f0 g.startSymbol "$") g.startSymbol).getD [] :=
      mapAdd_adds l hl "$"
    split at h
    · cases h
      exact mapAdd_mem_preserved _ _ hadd
    · cases h
      exact hadd

/-- One FOLLOW pass propagates `$` from FOLLOW of the augmented start into
FOLLOW of the original start, because the production list begins with
`S' → S` and `S` is a non-terminal with a FOLLOW entry. -/
theorem followPass_prod0 (g : Grammar) (first : SymMap) (S Saug : String)
    (ps : List Production)
    (hps : g.productions = { head := Saug, body := [S], id := 0 } :: ps)
    (hS : g.nonTerminals.contains S = true)
    (m : SymMap) (res : SymMap × Bool)
    (h : followPass g first m = some res)
    (hdollar : "$" ∈ (m Saug).getD []) :
    "$" ∈ (res.1 S).getD [] := by
  rw [followPass, hps, List.foldlM_cons] at h
  rcases hstep : followProdLoop g first Saug [S] m false with _ | mb
  · rw [hstep] at h; cases h
  · rw [hstep] at h
    rcases mb with ⟨mmid, cmid⟩
    simp only [Option.bind_eq_bind] at h
    have hnotS : ¬((!g.nonTerminals.contains S) = true) := by rw [hS]; simp
    have hred : followProdStep g first Saug S [] m =
        (match m S with
         | none => none
         | some before =>
           match m Saug with
           | none => none
           | some headSet =>
             some (headSet.foldl (fun acc f => if f ≠ EPS then mapAdd acc S f else acc) m,
               decide ((((headSet.foldl (fun acc f => if f ≠ EPS then mapAdd acc S f else acc) m)
                 S).getD []).length ≠ before.length))) := by
      rw [followProdStep, if_neg hnotS]
      exact rfl
    have hmid : "$" ∈ (mmid S).getD [] := by
      simp only [followProdLoop] at hstep
      split at hstep
      · cases hstep
      · next m2 ch heq =>
        cases hstep
        rcases hmS : m S with _ | before
        · rw [show followProdStep g first Saug S [] m = none by rw [hred, hmS]] at heq
          cases heq
        · rcases hmSaug : m Saug with _ | headSet
          · rw [hmSaug] at hdollar
            simp at hdollar
          · rw [show followProdStep g first Saug S [] m =
                some (headSet.foldl (fun acc f => if f ≠ EPS then mapAdd acc S f else acc) m,
                  decide ((((headSet.foldl (fun acc f => if f ≠ EPS then mapAdd acc S f else acc) m)
                    S).getD []).length ≠ before.length)) by
              rw [hred, hmS, hmSaug]] at heq
            have hpair := Option.some.inj heq
            have hm2 : (headSet.foldl (fun acc f => if f ≠ EPS then mapAdd acc S f else acc) m)
                = mmid := congrArg Prod.fst hpair
            rw [← hm2]
            apply foldl_mapAdd_adds S headSet m "$"
            · rw [hmS]; rfl
            · rw [hmSaug] at hdollar
              simpa using hdollar
            · decide
    exact followPass_foldlM_mem g first ps (mmid, false || cmid) res h S "$" hmid

/-- C2: for every grammar whose start symbol is one of its non-terminals,
a successful `computeFirstFollow` run on the augmented grammar puts the
end-of-input marker `$` both in FOLLOW of the original (pre-augmentation)
start symbol and in FOLLOW of the augmented start symbol. -/
theorem follow_dollar_user_start (G : Grammar) (ff : FirstFollowSets)
    (hS : G.startSymbol ∈ G.nonTerminals)
    (h : computeFirstFollow (augmentGrammar G) = some ff) :
    "$" ∈ (ff.follow G.startSymbol).getD [] ∧
    "$" ∈ (ff.follow (augmentGrammar G).startSymbol).getD [] := by
  rw [computeFirstFollow] at h
  split at h
  · cases h
  · next first hfirst =>
    split at h
    · cases h
    · next f1 hseed =>
      split at h
      · cases h
      · next follow hfollow =>
        cases h
        have hstart : "$" ∈ (f1 (augmentGrammar G).startSymbol).getD [] :=
          followSeed_start (augmentGrammar G) _ f1 hseed
        have hSmem : (augmentGrammar G).nonTerminals.contains G.startSymbol = true := by
          simp only [augmentGrammar, setAdd]
          split_ifs <;> simp [hS]
        constructor
        · obtain ⟨k, hk⟩ : ∃ k, ffFuel (augmentGrammar G) = k + 1 := ⟨_, rfl⟩
          rw [hk, followLoop_succ] at hfollow
          split at hfollow
          · cases hfollow
          · next mmid cmid hpass =>
            have hmid : "$" ∈ (mmid G.startSymbol).getD [] :=
              followPass_prod0 (augmentGrammar G) first G.startSymbol
                (augmentGrammar G).startSymbol _ rfl hSmem f1 (mmid, cmid) hpass hstart
            split_ifs at hfollow
            · exact followLoop_mem (augmentGrammar G) first _ mmid follow hfollow
                G.startSymbol "$" hmid
            · cases hfollow
              exact hmid
        · exact followLoop_mem (augmentGrammar G) first _ f1 follow hfollow
            (augmentGrammar G).startSymbol "$" hstart

/-- C2 (witness): instantiation on the grammar `S → a`. -/
theorem follow_dollar_user_start_witness :
    ∃ ff, computeFirstFollow (augmentGrammar
        { productions := [{ head := "S", body := ["a"], id := 0 }],
          terminals := ["a", "$"], nonTerminals := ["S"], startSymbol := "S" }) = some ff ∧
      "$" ∈ (ff.follow "S").getD [] := by
  rcases hff : computeFirstFollow (augmentGrammar
      { productions := [{ head := "S", body := ["a"], id := 0 }],
        terminals := ["a", "$"], nonTerminals := ["S"], startSymbol := "S" }) with _ | ff
  · have h1 : (computeFirstFollow (augmentGrammar
        { productions := [{ head := "S", body := ["a"], id := 0 }],
          terminals := ["a", "$"], nonTerminals := ["S"], startSymbol := "S" })).isSome = true := by
      decide
    rw [hff] at h1
    cases h1
  · exact ⟨ff, rfl, (follow_dollar_user_start _ ff (by decide) hff).1⟩

/-! ### The parse simulator (`simulator.ts`, `simulateParsing`) -/

/-- `ParseTreeNode` from `types`: id, label, ordered children, and the
optional literal text for terminal leaves. -/
inductive ParseTreeNode where
  | mk (id : String) (label : String) (children : List ParseTreeNode) (value : Option String)

/-- The label of a node. -/
def ParseTreeNode.label : ParseTreeNode → String
  | .mk _ l _ _ => l

/-- The children of a node. -/
def ParseTreeNode.childrenOf : ParseTreeNode → List ParseTreeNode
  | .mk _ _ c _ => c

/-- `ParseStep` from `types`. -/
structure ParseStep where
  step : Nat
  stack : List Nat
  symbols : List String
  input : List String
  action : String
  explanation : String
  forest : List ParseTreeNode

/-- `createNode` with the run's node-id counter made explicit (the source
uses a closure over a mutable counter). -/
def createNode (ctr : Nat) (label : String) (children : List ParseTreeNode)
    (value : Option String) : ParseTreeNode :=
  .mk ("node-" ++ Nat.repr ctr) label children value

/-- The mutable loop state of `simulateParsing`. -/
structure SimConfig where
  stack : List Nat
  symbols : List String
  nodeStack : List ParseTreeNode
  steps : List ParseStep
  inputIdx : Nat
  stepCount : Nat
  nodeIdCounter : Nat

/-- How a JavaScript template literal renders a possibly-undefined number. -/
def optNatRepr : Option Nat → String
  | some n => Nat.repr n
  | none => "undefined"

/-- How a JavaScript template literal renders a possibly-undefined string. -/
def optStrRepr : Option String → String
  | some s => s
  | none => "undefined"

/-- `table.action[currentState]?.[lookahead]`: undefined when either the
state (empty stack) or the lookahead (input exhausted) is undefined. -/
def actionAt (table : ParsingTable) (st : Option Nat) (la : Option String) :
    Option ActionEntry :=
  match st, la with
  | some s, some l => table.action s l
  | _, _ => none

/-- `table.goto[stateBeforeGoto]?.[head]`. -/
def gotoLookup (table : ParsingTable) (st : Option Nat) (head : String) : Option Nat :=
  match st with
  | some s => table.goto s head
  | none => none

/-- The hard iteration ceiling `MAX_STEPS` of the simulation loop. -/
def MAX_STEPS : Nat := 500

/-- The result of the simulation loop: a normal return of the accumulated
steps, or a thrown runtime error carrying the configuration at the throw
site (consumed by the `catch` at the simulation boundary). -/
inductive LoopResult where
  | normal (steps : List ParseStep)
  | thrown (cfg : SimConfig) (msg : String)

/-- The V8 message of the TypeError raised when `productions.find` returns
`undefined` and `.body` is read off it. -/
def rtErrorMsg : String :=
  "Cannot read properties of undefined (reading " ++ apos ++ "body" ++ apos ++ ")"

/-- The syntax-error step pushed when no action exists for
`(state, lookahead)`. -/
def syntaxErrorStep (tokens : List String) (cfg : SimConfig) : ParseStep :=
  { step := cfg.stepCount, stack := cfg.stack, symbols := cfg.symbols,
    input := tokens.drop cfg.inputIdx, action := "Error",
    explanation := "Syntax Error: No action for state " ++ optNatRepr cfg.stack.getLast? ++
      " with token " ++ apos ++ optStrRepr tokens[cfg.inputIdx]? ++ apos ++ ".",
    forest := cfg.nodeStack }

/-- The accept step. -/
def acceptStep (tokens : List String) (cfg : SimConfig) : ParseStep :=
  { step := cfg.stepCount, stack := cfg.stack, symbols := cfg.symbols,
    input := tokens.drop cfg.inputIdx, action := "Accept",
    explanation := "The input string has been successfully parsed!",
    forest := cfg.nodeStack }

/-- The shift branch: emit a step, then push the leaf, the state and the
symbol and advance the cursor.  The lookahead token is necessarily present
when this branch runs (the action lookup succeeded); `getD` merely
totalizes the access. -/
def shiftRecord (tokens : List String) (cfg : SimConfig) (nextState : Nat) : ParseStep :=
  { step := cfg.stepCount, stack := cfg.stack, symbols := cfg.symbols,
    input := tokens.drop cfg.inputIdx,
    action := "Shift S" ++ Nat.repr nextState,
    explanation := "Token " ++ apos ++ (tokens[cfg.inputIdx]?).getD "undefined" ++ apos ++
      " found. Shifting to state " ++ Nat.repr nextState ++ ".",
    forest := cfg.nodeStack }

def shiftConfig (tokens : List String) (cfg : SimConfig) (nextState : Nat) : SimConfig :=
  { stack := cfg.stack ++ [nextState],
    symbols := cfg.symbols ++ [(tokens[cfg.inputIdx]?).getD "undefined"],
    nodeStack := cfg.nodeStack ++
      [createNode cfg.nodeIdCounter ((tokens[cfg.inputIdx]?).getD "undefined") []
        (if (tokens[cfg.inputIdx]?).getD "undefined" == "$" then none
         else some ((tokens[cfg.inputIdx]?).getD "undefined"))],
    steps := cfg.steps ++ [shiftRecord tokens cfg nextState],
    inputIdx := cfg.inputIdx + 1,
    stepCount := cfg.stepCount + 1,
    nodeIdCounter := cfg.nodeIdCounter + 1 }

/-- `prod.body.length === 1 && prod.body[0] === EPS`. -/
def isEpsilonReduction (prod : Production) : Bool :=
  prod.body.length == 1 && prod.body.head? == some EPS

/-- The number of entries popped by a reduction: zero for the canonical
empty-production body, the body length otherwise. -/
def popCountOf (prod : Production) : Nat :=
  if isEpsilonReduction prod then 0 else prod.body.length

/-- The step record emitted when a reduction begins. -/
def reduceRecord (tokens : List String) (cfg : SimConfig) (prod : Production) : ParseStep :=
  { step := cfg.stepCount, stack := cfg.stack, symbols := cfg.symbols,
    input := tokens.drop cfg.inputIdx,
    action := "Reduce R" ++ Nat.repr prod.id ++ ": " ++ prod.head ++ " → " ++
      String.intercalate " " prod.body,
    explanation := "Rule matches. Reducing " ++ String.intercalate " " prod.body ++
      " to " ++ prod.head ++ ".",
    forest := cfg.nodeStack }

/-- The goto-error step pushed when the goto table has no entry at the
post-reduction state and production head (emitted after the pops, before
the new node is pushed). -/
def gotoErrorRecord (tokens : List String) (cfg : SimConfig) (prod : Production) : ParseStep :=
  { step := cfg.stepCount + 1,
    stack := cfg.stack.take (cfg.stack.length - popCountOf prod),
    symbols := cfg.symbols.take (cfg.symbols.length - popCountOf prod),
    input := tokens.drop cfg.inputIdx, action := "Error",
    explanation := "Goto Error: No transition for state " ++
      optNatRepr (cfg.stack.take (cfg.stack.length - popCountOf prod)).getLast? ++
      " on symbol " ++ apos ++ prod.head ++ apos ++ ".",
    forest := cfg.nodeStack.take (cfg.nodeStack.length - popCountOf prod) }

/-- The transition step emitted after a successful goto consultation. -/
def gotoStepRecord (tokens : List String) (cfg : SimConfig) (prod : Production)
    (nextState : Nat) (newNode : ParseTreeNode) : ParseStep :=
  { step := cfg.stepCount + 1,
    stack := cfg.stack.take (cfg.stack.length - popCountOf prod) ++ [nextState],
    symbols := cfg.symbols.take (cfg.symbols.length - popCountOf prod) ++ [prod.head],
    input := tokens.drop cfg.inputIdx,
    action := "GoTo(" ++ prod.head ++ ", " ++
      optNatRepr (cfg.stack.take (cfg.stack.length - popCountOf prod)).getLast? ++ ") = " ++
      Nat.repr nextState,
    explanation := "Transitioning to state " ++ Nat.repr nextState ++
      " after reducing to " ++ prod.head ++ ".",
    forest := cfg.nodeStack.take (cfg.nodeStack.length - popCountOf prod) ++ [newNode] }

/-- How the reduce branch of the loop leaves the loop: either a new
configuration to continue from, or the final steps of a halted run. -/
inductive ReduceOutcome where
  | proceed (cfg : SimConfig)
  | halt (steps : List ParseStep)

/-- The children of the new interior node: the popped nodes in original
left-to-right order, or a single synthetic `ε` leaf for the canonical
empty-production body. -/
def reduceChildren (cfg : SimConfig) (prod : Production) : List ParseTreeNode :=
  if isEpsilonReduction prod then
    cfg.nodeStack.drop (cfg.nodeStack.length - popCountOf prod) ++
      [createNode cfg.nodeIdCounter EPS [] none]
  else
    cfg.nodeStack.drop (cfg.nodeStack.length - popCountOf prod)

/-- The node-id counter after the children are assembled (the `ε` leaf
consumes one id). -/
def reduceCtr2 (cfg : SimConfig) (prod : Production) : Nat :=
  if isEpsilonReduction prod then cfg.nodeIdCounter + 1 else cfg.nodeIdCounter

/-- The interior node assembled by a reduction. -/
def reduceNewNode (cfg : SimConfig) (prod : Production) : ParseTreeNode :=
  createNode (reduceCtr2 cfg prod) prod.head (reduceChildren cfg prod) none

/-- The configuration after a reduction whose goto consultation succeeded:
pops applied, goto state, head symbol and new node pushed, and the two
emitted steps appended. -/
def reduceProceedConfig (tokens : List String) (cfg : SimConfig) (prod : Production)
    (nextState : Nat) : SimConfig :=
  { stack := cfg.stack.take (cfg.stack.length - popCountOf prod) ++ [nextState],
    symbols := cfg.symbols.take (cfg.symbols.length - popCountOf prod) ++ [prod.head],
    nodeStack := cfg.nodeStack.take (cfg.nodeStack.length - popCountOf prod) ++
      [reduceNewNode cfg prod],
    steps := (cfg.steps ++ [reduceRecord tokens cfg prod]) ++
      [gotoStepRecord tokens cfg prod nextState (reduceNewNode cfg prod)],
    inputIdx := cfg.inputIdx,
    stepCount := cfg.stepCount + 2,
    nodeIdCounter := reduceCtr2 cfg prod + 1 }

/-- The reduce branch of `simulateParsing` (source lines 132–193): emit the
reduction step, pop `popCountOf prod` entries from the three stacks
(collecting the popped nodes as children in original order, or a synthetic
`ε` leaf for the empty production), build the new interior node, consult
the goto table at the new top state, and either halt with a goto-error step
or push and emit the transition step. -/
def reduceStep (g : Grammar) (table : ParsingTable) (tokens : List String)
    (cfg : SimConfig) (prod : Production) : ReduceOutcome :=
  match gotoLookup table
      (cfg.stack.take (cfg.stack.length - popCountOf prod)).getLast? prod.head with
  | none =>
    .halt ((cfg.steps ++ [reduceRecord tokens cfg prod]) ++ [gotoErrorRecord tokens cfg prod])
  | some nextState =>
    .proceed (reduceProceedConfig tokens cfg prod nextState)

/-- The `while (stepCount < MAX_STEPS)` loop of `simulateParsing`.  The
fuel decreases once per iteration; since every iteration that continues
increases `stepCount` by at least one, the fuel supplied in
`simulateParsing` (`MAX_STEPS + 1`) is never exhausted before the source's
own guard stops the loop. -/
def simLoop (g : Grammar) (table : ParsingTable) (tokens : List String) :
    Nat → SimConfig → LoopResult
  | 0, cfg => .normal cfg.steps
  | fuel+1, cfg =>
    if cfg.stepCount < MAX_STEPS then
      match actionAt table cfg.stack.getLast? tokens[cfg.inputIdx]? with
      | none => .normal (cfg.steps ++ [syntaxErrorStep tokens cfg])
      | some (.shift nextState) =>
        simLoop g table tokens fuel (shiftConfig tokens cfg nextState)
      | some (.reduce prodId) =>
        match g.productions.find? (fun p => p.id == prodId) with
        | none => .thrown cfg rtErrorMsg
        | some prod =>
          match reduceStep g table tokens cfg prod with
          | .proceed cfg2 => simLoop g table tokens fuel cfg2
          | .halt steps => .normal steps
      | some .accept => .normal (cfg.steps ++ [acceptStep tokens cfg])
    else .normal cfg.steps

/-- The initial parse forest and node-id counter: leaves for the provided
initial symbols when present, otherwise placeholder leaves for the
(padded) symbol stack. -/
def initialForest (opts : SimOpts) (symbols : List String) : List ParseTreeNode × Nat :=
  match opts.initialSymbols with
  | some l =>
    if l.length > 0 then
      (l.enum.map (fun pr =>
        createNode pr.1 pr.2 [] (if pr.2 == "$" || pr.2 == EPS then none else some pr.2)),
       l.length)
    else
      if symbols.length > 0 then
        (symbols.enum.map (fun pr =>
          createNode pr.1 pr.2 [] (if pr.2 == "$" || pr.2 == EPS then none else some pr.2)),
         symbols.length)
      else ([], 0)
  | none =>
    if symbols.length > 0 then
      (symbols.enum.map (fun pr =>
        createNode pr.1 pr.2 [] (if pr.2 == "$" || pr.2 == EPS then none else some pr.2)),
       symbols.length)
    else ([], 0)

/-- The loop configuration `simulateParsing` starts from. -/
def initialConfig (opts : SimOpts) : SimConfig :=
  { stack := (normalizeStacks opts).1,
    symbols := (normalizeStacks opts).2,
    nodeStack := (initialForest opts (normalizeStacks opts).2).1,
    steps := [], inputIdx := 0, stepCount := 0,
    nodeIdCounter := (initialForest opts (normalizeStacks opts).2).2 }

/-- The final error step the `catch` block appends. -/
def runtimeErrorStep (tokens : List String) (cfg : SimConfig) (msg : String) : ParseStep :=
  { step := cfg.stepCount, stack := cfg.stack, symbols := cfg.symbols,
    input := tokens.drop cfg.inputIdx, action := "Error",
    explanation := "Runtime Error: " ++ msg, forest := cfg.nodeStack }

/-- `simulateParsing` from `simulator.ts`. -/
def simulateParsing (inputStr : String) (g : Grammar) (table : ParsingTable)
    (opts : SimOpts) : List ParseStep :=
  match simLoop g table (tokenize g inputStr) (MAX_STEPS + 1) (initialConfig opts) with
  | .normal steps => steps
  | .thrown cfg msg => cfg.steps ++ [runtimeErrorStep (tokenize g inputStr) cfg msg]

/-- A grammar with an empty production: `A' → A`, `A → ε`. -/
def gCycle : Grammar :=
  { productions := [{ head := "A" ++ apos, body := ["A"], id := 0 },
                    { head := "A", body := [EPS], id := 1 }],
    terminals := ["$"],
    nonTerminals := ["A", "A" ++ apos],
    startSymbol := "A" ++ apos }

/-- A malformed table with a goto cycle on the empty production:
state 0 reduces `A → ε` on `$` and `goto(0, A) = 0`. -/
def tableCycle : ParsingTable :=
  { action := fun s t => if s = 0 ∧ t = "$" then some (.reduce 1) else none,
    goto := fun s t => if s = 0 ∧ t = "A" then some 0 else none,
    terminals := ["$"], nonTerminals := ["A"], conflicts := [] }

/-- C3 (counterexample): on `gCycle`/`tableCycle` the simulation reaches the
MAX_STEPS ceiling having emitted no Accept and no Error step, and the
returned list simply ends with an ordinary GoTo step — no final step
identifies the run as an internal/defensive halt, refuting the claim as
stated at this concrete input. -/
theorem ceiling_no_marker_counterexample :
    (simulateParsing "" gCycle tableCycle {}).length = 500 ∧
    ((simulateParsing "" gCycle tableCycle {}).getLast?).map ParseStep.action =
      some ("GoTo(A, 0) = 0") ∧
    (simulateParsing "" gCycle tableCycle {}).all
      (fun s => !(s.action == "Accept") && !(s.action == "Error")) = true := by
  refine ⟨by decide, by decide, by decide⟩

/-- C3 (amended): when the loop's step counter has reached the MAX_STEPS
ceiling, the loop returns the accumulated step list unchanged — no
internal-halt marker step is appended, so a ceiling halt is recognizable
only by the absence of a final Accept or Error step. -/
theorem ceiling_returns_steps_unchanged (g : Grammar) (table : ParsingTable)
    (tokens : List String) (fuel : Nat) (cfg : SimConfig)
    (h : MAX_STEPS ≤ cfg.stepCount) :
    simLoop g table tokens fuel cfg = .normal cfg.steps := by
  cases fuel with
  | zero => rfl
  | succ n =>
    simp only [simLoop]
    rw [if_neg (by omega)]

/-- C3 (witness for the amended theorem): a configuration already at the
ceiling is returned unchanged. -/
theorem ceiling_returns_steps_unchanged_witness :
    simLoop gCycle tableCycle ["$"] 5
      { stack := [0], symbols := ["$"], nodeStack := [], steps := [],
        inputIdx := 0, stepCount := 500, nodeIdCounter := 0 } =
      .normal [] :=
  ceiling_returns_steps_unchanged gCycle tableCycle ["$"] 5 _ (by decide)

/-- C4: `simulateParsing` always returns a step list (a total function of
its inputs), and whenever the loop ends in a thrown runtime error the
result is the steps accumulated at the throw site with exactly one final
step appended whose action is `Error` — the catch at the simulation
boundary converts the throw instead of propagating it. -/
theorem simulate_total_catch (inputStr : String) (g : Grammar)
    (table : ParsingTable) (opts : SimOpts) :
    (∃ steps, simulateParsing inputStr g table opts = steps) ∧
    ∀ cfg msg,
      simLoop g table (tokenize g inputStr) (MAX_STEPS + 1) (initialConfig opts) =
        .thrown cfg msg →
      simulateParsing inputStr g table opts =
        cfg.steps ++ [runtimeErrorStep (tokenize g inputStr) cfg msg] ∧
      (simulateParsing inputStr g table opts).getLast?.map ParseStep.action =
        some "Error" := by
  refine ⟨⟨_, rfl⟩, ?_⟩
  intro cfg msg h
  have he : simulateParsing inputStr g table opts =
      cfg.steps ++ [runtimeErrorStep (tokenize g inputStr) cfg msg] := by
    rw [simulateParsing, h]
  refine ⟨he, ?_⟩
  rw [he, List.getLast?_concat]
  rfl

/-- A table whose only action names a production id that does not exist;
the source's `find(...)!.body` then throws a TypeError at runtime. -/
def tableBad : ParsingTable :=
  { action := fun s t => if s = 0 ∧ t = "$" then some (.reduce 99) else none,
    goto := fun _ _ => none, terminals := ["$"], nonTerminals := ["A"], conflicts := [] }

/-- C4 (witness): the dangling-production-id run is caught and converted
into a final Error step. -/
theorem simulate_total_catch_witness :
    simulateParsing "" gCycle tableBad {} =
      (initialConfig {}).steps ++
        [runtimeErrorStep (tokenize gCycle "") (initialConfig {}) rtErrorMsg] ∧
    (simulateParsing "" gCycle tableBad {}).getLast?.map ParseStep.action =
      some "Error" :=
  (simulate_total_catch "" gCycle tableBad {}).2 (initialConfig {}) rtErrorMsg (by rfl)

/-- C5: the reduce branch of the simulator.  Under the loop guard, a
Reduce action and a found production: the loop performs exactly the reduce
step; exactly `popCountOf prod` entries (the body length; zero for the
canonical ε body) are popped from each of the three stacks, the popped
nodes becoming the new node's children in original left-to-right order
(the ε case substituting a single synthetic ε leaf as the sole child), the
new interior node being labeled with the production head; when the goto
table has an entry at (new top state, head), the goto state, head symbol
and new node are pushed and exactly two steps are emitted — the reduction
and the transition; when it has none, the run halts with a goto-error step
following the reduction step. -/
theorem reduce_step_semantics (g : Grammar) (table : ParsingTable)
    (tokens : List String) (fuel : Nat) (cfg : SimConfig) (prodId : Nat) (prod : Production)
    (hlt : cfg.stepCount < MAX_STEPS)
    (hact : actionAt table cfg.stack.getLast? tokens[cfg.inputIdx]? = some (.reduce prodId))
    (hfind : g.productions.find? (fun p => p.id == prodId) = some prod)
    (hpopS : popCountOf prod ≤ cfg.stack.length)
    (hpopY : popCountOf prod ≤ cfg.symbols.length)
    (hpopN : popCountOf prod ≤ cfg.nodeStack.length) :
    (simLoop g table tokens (fuel+1) cfg =
      match reduceStep g table tokens cfg prod with
      | .proceed cfg2 => simLoop g table tokens fuel cfg2
      | .halt steps => .normal steps) ∧
    ((isEpsilonReduction prod = true → popCountOf prod = 0 ∧
        reduceChildren cfg prod = [createNode cfg.nodeIdCounter EPS [] none]) ∧
     (isEpsilonReduction prod = false → popCountOf prod = prod.body.length ∧
        reduceChildren cfg prod = cfg.nodeStack.drop (cfg.nodeStack.length - popCountOf prod) ∧
        (reduceChildren cfg prod).length = popCountOf prod) ∧
     (cfg.stack.take (cfg.stack.length - popCountOf prod)).length + popCountOf prod =
       cfg.stack.length ∧
     (cfg.symbols.take (cfg.symbols.length - popCountOf prod)).length + popCountOf prod =
       cfg.symbols.length ∧
     (cfg.nodeStack.take (cfg.nodeStack.length - popCountOf prod)).length + popCountOf prod =
       cfg.nodeStack.length ∧
     (reduceNewNode cfg prod).label = prod.head ∧
     (reduceNewNode cfg prod).childrenOf = reduceChildren cfg prod) ∧
    (∀ s2 ns, (cfg.stack.take (cfg.stack.length - popCountOf prod)).getLast? = some s2 →
       table.goto s2 prod.head = some ns →
       reduceStep g table tokens cfg prod = .proceed (reduceProceedConfig tokens cfg prod ns) ∧
       (reduceProceedConfig tokens cfg prod ns).stack =
         cfg.stack.take (cfg.stack.length - popCountOf prod) ++ [ns] ∧
       (reduceProceedConfig tokens cfg prod ns).symbols =
         cfg.symbols.take (cfg.symbols.length - popCountOf prod) ++ [prod.head] ∧
       (reduceProceedConfig tokens cfg prod ns).nodeStack =
         cfg.nodeStack.take (cfg.nodeStack.length - popCountOf prod) ++ [reduceNewNode cfg prod] ∧
       (reduceProceedConfig tokens cfg prod ns).steps =
         cfg.steps ++ [reduceRecord tokens cfg prod,
           gotoStepRecord tokens cfg prod ns (reduceNewNode cfg prod)] ∧
       (reduceProceedConfig tokens cfg prod ns).stepCount = cfg.stepCount + 2) ∧
    (gotoLookup table (cfg.stack.take (cfg.stack.length - popCountOf prod)).getLast?
        prod.head = none →
       reduceStep g table tokens cfg prod =
         .halt (cfg.steps ++ [reduceRecord tokens cfg prod, gotoErrorRecord tokens cfg prod]) ∧
       (gotoErrorRecord tokens cfg prod).action = "Error") := by
  refine ⟨?_, ⟨?_, ?_, ?_, ?_, ?_, rfl, rfl⟩, ?_, ?_⟩
  · have hA1 : simLoop g table tokens (fuel+1) cfg =
        (match g.productions.find? (fun p => p.id == prodId) with
         | none => LoopResult.thrown cfg rtErrorMsg
         | some prod2 =>
           match reduceStep g table tokens cfg prod2 with
           | .proceed cfg2 => simLoop g table tokens fuel cfg2
           | .halt steps => LoopResult.normal steps) := by
      simp only [simLoop]
      rw [if_pos hlt, hact]
    rw [hfind] at hA1
    exact hA1.trans rfl
  · intro h
    refine ⟨by simp [popCountOf, h], ?_⟩
    simp [reduceChildren, h, popCountOf]
  · intro h
    refine ⟨by simp [popCountOf, h], by simp [reduceChildren, h], ?_⟩
    simp [reduceChildren, h, List.length_drop]
    omega
  · simp [List.length_take]
    omega
  · simp [List.length_take]
    omega
  · simp [List.length_take]
    omega
  · intro s2 ns hs2 hgoto
    refine ⟨?_, rfl, rfl, rfl, ?_, rfl⟩
    · rw [reduceStep, hs2]
      rw [show gotoLookup table (some s2) prod.head = table.goto s2 prod.head from rfl, hgoto]
    · exact List.append_assoc _ _ _
  · intro hnone
    refine ⟨?_, rfl⟩
    rw [reduceStep, hnone]
    exact congrArg ReduceOutcome.halt (List.append_assoc _ _ _)

/-- Concrete loop configuration for the C5 witness. -/
def cfgW5 : SimConfig :=
  { stack := [0], symbols := ["$"], nodeStack := [createNode 0 "$" [] none],
    steps := [], inputIdx := 0, stepCount := 0, nodeIdCounter := 1 }

/-- Concrete table for the C5 witness: reduce `A → ε` on `$`, with
`goto(0, A) = 3`. -/
def tableW5 : ParsingTable :=
  { action := fun s t => if s = 0 ∧ t = "$" then some (.reduce 1) else none,
    goto := fun s t => if s = 0 ∧ t = "A" then some 3 else none,
    terminals := ["$"], nonTerminals := ["A"], conflicts := [] }

/-- C5 (witness): a concrete ε reduction pushes the goto state and leaves
the counter advanced by two steps. -/
theorem reduce_step_semantics_witness :
    reduceStep gCycle tableW5 ["$"] cfgW5 { head := "A", body := [EPS], id := 1 } =
      .proceed (reduceProceedConfig ["$"] cfgW5 { head := "A", body := [EPS], id := 1 } 3) ∧
    (reduceProceedConfig ["$"] cfgW5 { head := "A", body := [EPS], id := 1 } 3).stepCount = 2 ∧
    (reduceProceedConfig ["$"] cfgW5 { head := "A", body := [EPS], id := 1 } 3).stack = [0, 3] := by
  have h := reduce_step_semantics gCycle tableW5 ["$"] 0 cfgW5 1
    { head := "A", body := [EPS], id := 1 }
    (by decide) (by decide) (by decide) (by decide) (by decide) (by decide)
  have hB := h.2.2.1 0 3 (by decide) (by decide)
  exact ⟨hB.1, by decide, by decide⟩

end SLR
